import Mathlib

/-!
# DeDupe: a shallow embedding of `src/main.cpp`

The program reads a file line by line; every line is split into the three
whitespace-separated fields `name ip port`, and the lines are stored in a
vector.  When a user name arrives while two positions are pending for it, the
two pending lines are overwritten with the empty string.

Modelling decisions.

* `std::string` is a Lean `String`; its bytes are the characters.
* The input stream is the list of lines that successive `std::getline` calls
  deliver.
* `DataList` (a `std::vector<std::string>`) is a `List String`.  Writing
  `data[i]` with `i` out of range is undefined behaviour in C++; the embedding
  is total and returns `none` there.
* `OccursList` (a `std::unordered_map`) is an association list with unique
  keys, read with `find` and `entry` and written with `assign`.
* `index` is a `size_t`.  It always equals `data.size()`, which the vector
  bounds far below `2^64`, so it is a `Nat` here.
* `main` is a function of `argc`, `argv[1]` and the named file (absent when the
  stream is not `good()` after opening); it returns the lines written to
  `std::cout` and the exit status.
-/

namespace DeDupe

/-! ## Strings and the stream extraction `iss >> name >> ip >> port` -/

/-- The predicate `std::isspace` of the "C" locale: space, `\t`, `\n`, `\v`,
`\f` and `\r`. -/
def isspace (c : Char) : Bool :=
  c = ' ' || c = '\t' || c = '\n' || c = '\x0b' || c = '\x0c' || c = '\r'

/-- One `operator>>(std::istream&, std::string&)` on the characters left in
the stream: leading whitespace is skipped; when characters remain, the token
up to the next whitespace is extracted and returned with the rest of the
stream; when none remain the extraction fails (`none`) and the target string
is left as it was. -/
def extract (cs : List Char) : Option (List Char × List Char) :=
  let rest := cs.dropWhile isspace
  if rest = [] then none
  else some (rest.takeWhile (fun c => !isspace c), rest.dropWhile (fun c => !isspace c))

/-- The first whitespace-separated token of a line, if it has one. -/
def firstToken (line : String) : Option String :=
  (extract line.data).map (fun r => String.mk r.1)

/-- The three scratch strings `name`, `ip`, `port`, declared once outside the
loop and therefore carried from one iteration to the next. -/
structure Scratch where
  name : String
  ip : String
  port : String
deriving DecidableEq, Repr

/-- The statement `iss >> name >> ip >> port` on a fresh stream over `line`.  A
failed extraction sets the fail bit, so every later extraction of the chain
fails as well and leaves its target untouched. -/
def parse (sc : Scratch) (line : String) : Scratch :=
  match extract line.data with
  | none => sc
  | some (n, r1) =>
    match extract r1 with
    | none => { sc with name := String.mk n }
    | some (i, r2) =>
      match extract r2 with
      | none => { sc with name := String.mk n, ip := String.mk i }
      | some (p, _) => { name := String.mk n, ip := String.mk i, port := String.mk p }

/-! ## The map `OccursList` -/

/-- The type `OccursList`: user name to the pending index positions. -/
abbrev OccursList := List (String × List Nat)

/-- The lookup `occurs.find(name)`; `none` stands for `occurs.end()`. -/
def find : OccursList → String → Option (List Nat)
  | [], _ => none
  | (k, v) :: m, name => if k = name then some v else find m name

/-- The vector read by `occurs[name]`; a missing key reads as the empty
vector, which is what `operator[]` creates. -/
def entry (m : OccursList) (name : String) : List Nat :=
  (find m name).getD []

/-- The write `occurs[name] = v`: the entry of `name` is replaced, or created
when there is none. -/
def assign : OccursList → String → List Nat → OccursList
  | [], name, v => [(name, v)]
  | (k, w) :: m, name, v => if k = name then (k, v) :: m else (k, w) :: assign m name v

/-! ## The loop of `dedupe` -/

/-- The local variables of `dedupe`. -/
structure Scan where
  data : List String
  occurs : OccursList
  index : Nat
  scratch : Scratch
deriving DecidableEq, Repr

/-- The state before the first line is read: empty vector and map, index `0`,
default-constructed (empty) scratch strings. -/
def Scan.init : Scan :=
  { data := [], occurs := [], index := 0, scratch := ⟨"", "", ""⟩ }

/-- The indexed write `data[i] = ""`; out of range is `none`. -/
def clearAt (data : List String) (i : Nat) : Option (List String) :=
  if i < data.length then some (data.set i "") else none

/-- The block guarded by `occurs[name].size() == 2`: both pending positions are
overwritten with the empty string and the vector of `name` is cleared. -/
def trigger (data : List String) (occurs : OccursList) (name : String) :
    Option (List String × OccursList) :=
  if (entry occurs name).length = 2 then do
    let i0 ← (entry occurs name)[0]?
    let d0 ← clearAt data i0
    let i1 ← (entry occurs name)[1]?
    let d1 ← clearAt d0 i1
    pure (d1, assign occurs name [])
  else
    pure (data, occurs)

/-- One iteration of the `for` loop, for the line just read. -/
def step (s : Scan) (line : String) : Option Scan := do
  let sc := parse s.scratch line
  let name := sc.name
  let occurs0 := if (find s.occurs name).isNone then assign s.occurs name [] else s.occurs
  let (data1, occurs1) ← trigger s.data occurs0 name
  let data2 := data1 ++ [line]
  let occurs2 := assign occurs1 name (entry occurs1 name ++ [s.index])
  pure { data := data2, occurs := occurs2, index := s.index + 1, scratch := sc }

/-- The loop run over the remaining lines from state `s`. -/
def run (s : Scan) : List String → Option Scan
  | [] => some s
  | line :: rest => (step s line).bind (fun s1 => run s1 rest)

/-- The function `dedupe`: the vector `data` after the last line. -/
def dedupe (lines : List String) : Option (List String) :=
  (run Scan.init lines).map (fun s => s.data)

/-! ## Attribution of lines to user names -/

/-- The value of `name` used for each line, in input order, when the scratch
strings hold `sc` before the first of them. -/
def attributed (sc : Scratch) : List String → List String
  | [] => []
  | line :: rest => (parse sc line).name :: attributed (parse sc line) rest

/-- The positions of `l` that hold `a`, in increasing order. -/
def positions {α : Type} [DecidableEq α] (a : α) (l : List α) : List Nat :=
  (List.range l.length).filter (fun i => decide (l[i]? = some a))

/-- Among `k` occurrences of a name, the number of leading ones that have been
cleared: `0, 0, 2, 2, 4, 4, ...` for `k = 1, 2, 3, 4, 5, 6, ...`. -/
def cleared (k : Nat) : Nat := 2 * ((k - 1) / 2)

/-- The occurrences of `a` in `l` that are still pending. -/
def window {α : Type} [DecidableEq α] (a : α) (l : List α) : List Nat :=
  (positions a l).drop (cleared (positions a l).length)

/-! ## The driver `main` -/

/-- The loop `for (size_t i = 0; (i < result.size()); i++)` of `main`, started
at counter `i` with `fuel` iterations allowed: while `i` is an index of
`result`, the line `i << ": " << result[i] << std::endl` is written.  The
returned list holds the lines written, without their line ends. -/
def printLoop (result : List String) : Nat → Nat → List String
  | 0, _ => []
  | fuel + 1, i =>
    match result[i]? with
    | none => []
    | some item => (toString i ++ ": " ++ item) :: printLoop result fuel (i + 1)

/-- The function `main`, as a function of `argc`, of `argv[1]`, and of the file
it names: `none` when the stream is not `good()` after opening, otherwise the
lines it delivers.  The result is the list of lines written to `std::cout` and
the exit status; falling off the end of `main` is status `0`. -/
def main (argc : Int) (argv1 : String) (file : Option (List String)) :
    Option (List String × Int) :=
  if argc ≠ 2 then
    some (["Specify data file as command-line argument."], 1)
  else
    match file with
    | none => some (["Error reading data from " ++ argv1], 2)
    | some lines => do
      let result ← dedupe lines
      pure (printLoop result result.length 0, 0)

/-! ## Attribution in the words of the specification -/

/-- The identity a line is processed under, in the words of the specification:
the first token of the nearest line at or before position `i` that has a
token, and the empty identity if there is none. -/
def retainedIdentity (lines : List String) (i : Nat) : String :=
  ((lines.take (i + 1)).reverse.findSome? firstToken).getD ""

/-! ## Vocabulary of the properties -/

/-- The line has at least one whitespace-separated token. -/
def hasToken (line : String) : Bool := (firstToken line).isSome

/-- The identity (first token) of every line, in input order. -/
def identities (lines : List String) : List (Option String) := lines.map firstToken

/-- The positions of `out` that hold a non-empty record whose input line has
identity `X`. -/
def live (X : String) (lines out : List String) : List Nat :=
  (List.range out.length).filter
    (fun i => decide ((identities lines)[i]? = some (some X)) && decide (out[i]? ≠ some ""))

/-- The loop invariant: `s` is the state of `dedupe` once exactly `lines` have
been processed.  With `ids` the names the lines were processed under, the map
holds for every name seen its pending window, and a line is still in `data`
exactly when its position is in the window of its name. -/
structure Inv (lines : List String) (s : Scan) : Prop where
  index_eq : s.index = lines.length
  length_eq : s.data.length = lines.length
  scratch_eq : s.scratch = lines.foldl parse Scan.init.scratch
  occurs_eq : ∀ X, find s.occurs X =
    if X ∈ attributed Scan.init.scratch lines
    then some (window X (attributed Scan.init.scratch lines)) else none
  data_eq : ∀ i X line, (attributed Scan.init.scratch lines)[i]? = some X →
    lines[i]? = some line →
    s.data[i]? = some (if i ∈ window X (attributed Scan.init.scratch lines) then line else "")

end DeDupe

namespace DeDupe

theorem find_assign (m : OccursList) (k k' : String) (v : List Nat) :
    find (assign m k v) k' = if k = k' then some v else find m k' := by
  induction m with
  | nil => simp [assign, find]
  | cons hd tl ih =>
    obtain ⟨a, w⟩ := hd
    by_cases h : a = k
    · subst h
      by_cases h' : a = k' <;> simp [assign, find, h']
    · by_cases h' : a = k'
      · subst h'
        simp [assign, find, h, Ne.symm h]
      · simp [assign, find, h, h', ih]

theorem positions_snoc {α : Type} [DecidableEq α] (a b : α) (l : List α) :
    positions a (l ++ [b]) = positions a l ++ (if b = a then [l.length] else []) := by
  unfold positions
  rw [List.length_append, List.length_singleton, List.range_succ, List.filter_append]
  congr 1
  · apply List.filter_congr
    intro i hi
    rw [List.mem_range] at hi
    simp [List.getElem?_append_left hi]
  · by_cases h : b = a <;> simp [h]

theorem mem_positions {α : Type} [DecidableEq α] (a : α) (l : List α) (i : Nat) :
    i ∈ positions a l ↔ l[i]? = some a := by
  unfold positions
  simp only [List.mem_filter, List.mem_range, decide_eq_true_eq]
  constructor
  · exact fun h => h.2
  · intro h
    refine ⟨?_, h⟩
    by_contra hlt
    rw [List.getElem?_eq_none (by omega)] at h
    cases h

theorem positions_eq_nil {α : Type} [DecidableEq α] (a : α) (l : List α) (h : a ∉ l) :
    positions a l = [] := by
  rw [List.eq_nil_iff_forall_not_mem]
  intro i hi
  rw [mem_positions] at hi
  exact h (List.getElem?_mem hi)

theorem positions_lt {α : Type} [DecidableEq α] (a : α) (l : List α) (i : Nat)
    (h : i ∈ positions a l) : i < l.length := by
  unfold positions at h
  rw [List.mem_filter, List.mem_range] at h
  exact h.1

theorem cleared_le (k : Nat) : cleared k ≤ k := by
  unfold cleared
  omega

theorem window_length {α : Type} [DecidableEq α] (a : α) (l : List α) :
    (window a l).length = (positions a l).length - cleared (positions a l).length := by
  unfold window
  rw [List.length_drop]

theorem window_length_le {α : Type} [DecidableEq α] (a : α) (l : List α) :
    (window a l).length ≤ 2 := by
  rw [window_length]
  unfold cleared
  omega

theorem mem_window {α : Type} [DecidableEq α] (a : α) (l : List α) (i : Nat)
    (h : i ∈ window a l) : l[i]? = some a :=
  (mem_positions a l i).1 (List.mem_of_mem_drop h)

theorem window_eq_nil {α : Type} [DecidableEq α] (a : α) (l : List α) (h : a ∉ l) :
    window a l = [] := by
  unfold window
  rw [positions_eq_nil a l h]
  rfl

theorem window_ne_nil {α : Type} [DecidableEq α] (a : α) (l : List α) (h : a ∈ l) :
    window a l ≠ [] := by
  obtain ⟨i, hi⟩ := List.getElem?_of_mem h
  have hpos : 0 < (positions a l).length :=
    List.length_pos_of_mem ((mem_positions a l i).2 hi)
  intro hnil
  have hlen := window_length a l
  rw [hnil, List.length_nil] at hlen
  unfold cleared at hlen
  omega

theorem window_snoc_ne {α : Type} [DecidableEq α] (a b : α) (l : List α) (h : b ≠ a) :
    window a (l ++ [b]) = window a l := by
  unfold window
  rw [positions_snoc, if_neg h, List.append_nil]

theorem window_snoc_self {α : Type} [DecidableEq α] (a : α) (l : List α) :
    window a (l ++ [a]) =
      if (window a l).length = 2 then [l.length] else window a l ++ [l.length] := by
  have hlen := window_length a l
  unfold window at *
  rw [positions_snoc, if_pos rfl, List.length_append, List.length_singleton]
  generalize positions a l = occ at *
  unfold cleared at *
  split
  · next h2 =>
    have hm : 2 * ((occ.length + 1 - 1) / 2) = occ.length + 0 := by omega
    rw [hm, List.drop_append]
    rfl
  · next h2 =>
    have hm : 2 * ((occ.length + 1 - 1) / 2) = 2 * ((occ.length - 1) / 2) := by omega
    rw [hm, List.drop_append_of_le_length (by omega)]

theorem attributed_length (sc : Scratch) (lines : List String) :
    (attributed sc lines).length = lines.length := by
  induction lines generalizing sc with
  | nil => rfl
  | cons l ls ih => simp [attributed, ih]

theorem attributed_snoc (sc : Scratch) (lines : List String) (line : String) :
    attributed sc (lines ++ [line]) =
      attributed sc lines ++ [(parse (lines.foldl parse sc) line).name] := by
  induction lines generalizing sc with
  | nil => rfl
  | cons l ls ih => simp [attributed, ih]

theorem run_snoc (s : Scan) (lines : List String) (line : String) :
    run s (lines ++ [line]) = (run s lines).bind (fun s1 => step s1 line) := by
  induction lines generalizing s with
  | nil =>
    simp only [List.nil_append, run, Option.some_bind]
    cases step s line <;> rfl
  | cons l ls ih =>
    simp only [List.cons_append, run]
    cases step s l with
    | none => rfl
    | some s1 => simpa using ih s1

theorem trigger_spec (data : List String) (occurs : OccursList) (name : String)
    (hw : ∀ i ∈ entry occurs name, i < data.length) :
    ∃ d1 o1, trigger data occurs name = some (d1, o1) ∧ d1.length = data.length ∧
      (∀ i, i < data.length → d1[i]? =
        if (entry occurs name).length = 2 ∧ i ∈ entry occurs name then some "" else data[i]?) ∧
      (∀ X, find o1 X =
        if name = X ∧ (entry occurs name).length = 2 then some [] else find occurs X) := by
  by_cases h2 : (entry occurs name).length = 2
  · obtain ⟨a, b, hab⟩ := List.length_eq_two.1 h2
    have ha : a < data.length := hw a (by simp [hab])
    have hb : b < data.length := hw b (by simp [hab])
    refine ⟨(data.set a "").set b "", assign occurs name [], ?_, by simp, ?_, ?_⟩
    · simp [trigger, hab, clearAt, ha, hb]
    · intro i hi
      simp only [h2, hab, true_and, List.mem_cons, List.mem_singleton, List.not_mem_nil,
        or_false, List.getElem?_set, List.length_set]
      by_cases hib : b = i
      · subst hib
        simp [hb]
      · by_cases hia : a = i
        · subst hia
          simp [hib, ha]
        · simp [hib, hia, Ne.symm hib, Ne.symm hia]
    · intro X
      rw [find_assign]
      simp [h2]
  · refine ⟨data, occurs, ?_, rfl, ?_, ?_⟩
    · simp [trigger, h2]
    · intro i _
      simp [h2]
    · intro X
      simp [h2]

theorem step_inv (lines : List String) (s : Scan) (line : String) (h : Inv lines s) :
    ∃ s1, step s line = some s1 ∧ Inv (lines ++ [line]) s1 := by
  obtain ⟨hidx, hlen, hsc, hocc, hdata⟩ := h
  obtain ⟨Y, hY⟩ : ∃ Y, Y = (parse s.scratch line).name := ⟨_, rfl⟩
  have hids : attributed Scan.init.scratch (lines ++ [line]) =
      attributed Scan.init.scratch lines ++ [Y] := by
    rw [attributed_snoc, ← hsc, hY]
  have hidlen := attributed_length Scan.init.scratch lines
  generalize attributed Scan.init.scratch lines = ids at *
  obtain ⟨occurs0, hocc0, hfind0⟩ : ∃ o0,
      o0 = (if (find s.occurs Y).isNone then assign s.occurs Y [] else s.occurs) ∧
      ∀ X, find o0 X = if Y = X then some (window Y ids) else find s.occurs X := by
    refine ⟨_, rfl, ?_⟩
    intro X
    have hYocc := hocc Y
    by_cases hYin : Y ∈ ids
    · rw [if_pos hYin] at hYocc
      by_cases hX : Y = X
      · subst hX
        simp [hYocc]
      · simp [hYocc, hX]
    · rw [if_neg hYin] at hYocc
      simp [hYocc, find_assign, window_eq_nil Y ids hYin]
  have hentry0 : entry occurs0 Y = window Y ids := by simp [entry, hfind0]
  obtain ⟨d1, o1, htrig, hd1len, hd1, ho1⟩ := trigger_spec s.data occurs0 Y (by
    intro i hi
    rw [hentry0] at hi
    have := positions_lt Y ids i (List.mem_of_mem_drop hi)
    omega)
  rw [hentry0] at hd1 ho1
  have hentry1 : entry o1 Y = if (window Y ids).length = 2 then [] else window Y ids := by
    unfold entry
    rw [ho1 Y, hfind0 Y]
    by_cases h2 : (window Y ids).length = 2 <;> simp [h2]
  refine ⟨{ data := d1 ++ [line], occurs := assign o1 Y (entry o1 Y ++ [s.index]),
            index := s.index + 1, scratch := parse s.scratch line }, ?_, ?_⟩
  · simp only [step, ← hY, ← hocc0, htrig]
    rfl
  · refine ⟨by simp [hidx], by simp [hd1len, hlen], by simp [List.foldl_append, hsc], ?_, ?_⟩
    · intro X
      simp only [hids, find_assign]
      by_cases hX : Y = X
      · subst hX
        rw [if_pos rfl, if_pos (by simp), window_snoc_self, hentry1, hidx, hidlen]
        by_cases h2 : (window Y ids).length = 2 <;> simp [h2]
      · rw [if_neg hX, ho1 X, hfind0 X, if_neg hX, if_neg (by simp [hX]), hocc X,
          window_snoc_ne X Y ids hX]
        have hmem : X ∈ ids ++ [Y] ↔ X ∈ ids := by simp [Ne.symm hX]
        simp only [hmem]
    · intro i X l hi hl
      simp only [hids] at hi ⊢
      rcases Nat.lt_trichotomy i lines.length with hlt | heq | hgt
      · rw [List.getElem?_append_left (by omega)] at hi hl
        rw [List.getElem?_append_left (by omega), hd1 i (by omega), hdata i X l hi hl]
        by_cases hX : Y = X
        · subst hX
          rw [window_snoc_self]
          by_cases h2 : (window Y ids).length = 2
          · have hne : i ≠ ids.length := by omega
            by_cases hiw : i ∈ window Y ids <;> simp [h2, hiw, hne]
          · have hne : i ≠ ids.length := by omega
            simp [h2, hne]
        · rw [window_snoc_ne X Y ids hX]
          have hnot : ¬ ((window Y ids).length = 2 ∧ i ∈ window Y ids) := by
            rintro ⟨_, hiw⟩
            have := mem_window Y ids i hiw
            rw [hi] at this
            exact hX (Option.some.inj this).symm
          rw [if_neg hnot]
      · subst heq
        rw [List.getElem?_append_right (by omega)] at hi hl
        rw [hidlen] at hi
        simp only [Nat.sub_self, List.getElem?_cons_zero, Option.some.injEq] at hi hl
        subst hi hl
        rw [List.getElem?_append_right (by omega), hd1len, hlen]
        simp only [Nat.sub_self, List.getElem?_cons_zero, Option.some.injEq]
        rw [window_snoc_self, hidlen]
        by_cases h2 : (window Y ids).length = 2 <;> simp [h2]
      · rw [List.getElem?_eq_none (by simp; omega)] at hl
        cases hl

theorem init_inv : Inv [] Scan.init :=
  ⟨rfl, rfl, rfl, fun X => by simp [Scan.init, find, attributed],
   fun i X line hi => by simp [attributed] at hi⟩

theorem run_inv (lines : List String) : ∃ s, run Scan.init lines = some s ∧ Inv lines s := by
  induction lines using List.reverseRecOn with
  | nil => exact ⟨Scan.init, rfl, init_inv⟩
  | append_singleton ls l ih =>
    obtain ⟨s, hs, hinv⟩ := ih
    obtain ⟨s1, hs1, hinv1⟩ := step_inv ls s l hinv
    exact ⟨s1, by rw [run_snoc, hs]; exact hs1, hinv1⟩

/-! ## Occurrence lists: order, prefixes, and the window by occurrence number -/

theorem positions_pairwise {α : Type} [DecidableEq α] (a : α) (l : List α) :
    (positions a l).Pairwise (fun x y => x < y) :=
  (List.pairwise_lt_range _).filter _

theorem positions_nodup {α : Type} [DecidableEq α] (a : α) (l : List α) :
    (positions a l).Nodup :=
  (List.nodup_range _).filter _

theorem mem_window_iff {α : Type} [DecidableEq α] (a : α) (l : List α) (j i : Nat)
    (h : (positions a l)[j]? = some i) :
    i ∈ window a l ↔ cleared (positions a l).length ≤ j := by
  unfold window
  generalize cleared (positions a l).length = c
  have hj : j < (positions a l).length := by
    obtain ⟨hj, _⟩ := List.getElem?_eq_some.1 h
    exact hj
  rw [List.mem_iff_getElem?]
  constructor
  · rintro ⟨m, hm⟩
    rw [List.getElem?_drop, ← h] at hm
    have := List.getElem?_inj hj (positions_nodup a l) hm.symm
    omega
  · intro hc
    refine ⟨j - c, ?_⟩
    rw [List.getElem?_drop, ← h]
    congr 1
    omega

theorem positions_take {α : Type} [DecidableEq α] (a : α) (l : List α) (m : Nat) :
    positions a (l.take m) = (positions a l).filter (fun i => decide (i < m)) := by
  unfold positions
  rw [List.filter_filter]
  by_cases hm : l.length ≤ m
  · rw [List.take_of_length_le hm]
    apply List.filter_congr
    intro i hi
    rw [List.mem_range] at hi
    have : i < m := by omega
    simp [this]
  · have hlen : l.length = m + (l.length - m) := by omega
    rw [List.length_take, Nat.min_eq_left (by omega)]
    conv_rhs => rw [hlen, List.range_add, List.filter_append]
    have hnil : List.filter (fun i => decide (i < m) && decide (l[i]? = some a))
        (List.map (fun x => m + x) (List.range (l.length - m))) = [] := by
      rw [List.filter_eq_nil_iff]
      intro i hi
      rw [List.mem_map] at hi
      obtain ⟨x, _, rfl⟩ := hi
      simp
    rw [hnil, List.append_nil]
    apply List.filter_congr
    intro i hi
    rw [List.mem_range] at hi
    simp [List.getElem?_take_of_lt hi, hi]

theorem pairwise_filter_lt (occ : List Nat) (k p : Nat)
    (hs : occ.Pairwise (fun x y => x < y)) (hk : occ[k]? = some p) :
    occ.filter (fun i => decide (i < p + 1)) = occ.take (k + 1) := by
  obtain ⟨hklt, hkp⟩ := List.getElem?_eq_some.1 hk
  rw [List.pairwise_iff_getElem] at hs
  conv_lhs => rw [← List.take_append_drop (k + 1) occ]
  rw [List.filter_append]
  have h1 : List.filter (fun i => decide (i < p + 1)) (occ.take (k + 1)) = occ.take (k + 1) := by
    rw [List.filter_eq_self]
    intro x hx
    obtain ⟨i, hi, rfl⟩ := List.mem_take_iff_getElem.1 hx
    have hik : i < k + 1 := by
      rw [Nat.lt_min] at hi
      exact hi.1
    have hil : i < occ.length := by
      rw [Nat.lt_min] at hi
      exact hi.2
    rcases Nat.lt_or_ge i k with hlt | hge
    · have := hs i k hil hklt hlt
      simp only [decide_eq_true_eq]
      omega
    · have hik2 : i = k := by omega
      subst hik2
      simp only [decide_eq_true_eq]
      omega
  have h2 : List.filter (fun i => decide (i < p + 1)) (occ.drop (k + 1)) = [] := by
    rw [List.filter_eq_nil_iff]
    intro x hx
    obtain ⟨i, hi, rfl⟩ := List.mem_drop_iff_getElem.1 hx
    have := hs k (k + 1 + i) hklt (by omega) (by omega)
    simp only [decide_eq_true_eq]
    omega
  rw [h1, h2, List.append_nil]

theorem positions_take_at {α : Type} [DecidableEq α] (a : α) (l : List α) (k p : Nat)
    (hk : (positions a l)[k]? = some p) :
    positions a (l.take (p + 1)) = (positions a l).take (k + 1) := by
  rw [positions_take, pairwise_filter_lt _ k p (positions_pairwise a l) hk]

theorem positions_map {α β : Type} [DecidableEq α] [DecidableEq β] (f : α → β)
    (hf : Function.Injective f) (a : α) (l : List α) :
    positions (f a) (l.map f) = positions a l := by
  unfold positions
  rw [List.length_map]
  apply List.filter_congr
  intro i _
  rw [List.getElem?_map]
  cases l[i]? with
  | none => simp
  | some b => simp [hf.eq_iff]

theorem window_map {α β : Type} [DecidableEq α] [DecidableEq β] (f : α → β)
    (hf : Function.Injective f) (a : α) (l : List α) :
    window (f a) (l.map f) = window a l := by
  unfold window
  rw [positions_map f hf]

/-! ## Lines that all carry a token -/

theorem parse_name (sc : Scratch) (line : String) :
    (parse sc line).name = (firstToken line).getD sc.name := by
  unfold parse firstToken
  rcases extract line.data with _ | ⟨n, r1⟩
  · rfl
  · simp only [Option.map_some', Option.getD_some]
    rcases extract r1 with _ | ⟨i, r2⟩
    · rfl
    · simp only
      rcases extract r2 with _ | ⟨p, r3⟩ <;> rfl

theorem attributed_tokens (sc : Scratch) (lines : List String)
    (h : ∀ l ∈ lines, hasToken l = true) :
    (attributed sc lines).map some = identities lines := by
  induction lines generalizing sc with
  | nil => rfl
  | cons l ls ih =>
    have hl : hasToken l = true := h l (List.mem_cons_self _ _)
    have hls : ∀ x ∈ ls, hasToken x = true := fun x hx => h x (List.mem_cons_of_mem _ hx)
    unfold hasToken at hl
    obtain ⟨t, ht⟩ := Option.isSome_iff_exists.1 hl
    have ih1 := ih (parse sc l) hls
    unfold identities at ih1 ⊢
    simp only [attributed, List.map_cons, ih1, parse_name, ht, Option.getD_some]

theorem firstToken_ne_empty (line X : String) (h : firstToken line = some X) : line ≠ "" := by
  rintro rfl
  have hnone : firstToken "" = none := by decide
  rw [hnone] at h
  cases h

theorem dedupe_tokens (lines : List String) (h : ∀ l ∈ lines, hasToken l = true) :
    ∃ out, dedupe lines = some out ∧ out.length = lines.length ∧
      ∀ X j p, (positions (some X) (identities lines))[j]? = some p →
        out[p]? = if cleared (positions (some X) (identities lines)).length ≤ j
          then lines[p]? else some "" := by
  obtain ⟨s, hrun, hinv⟩ := run_inv lines
  refine ⟨s.data, by simp [dedupe, hrun], hinv.length_eq, ?_⟩
  intro X j p hj
  have hids := attributed_tokens Scan.init.scratch lines h
  have hmem : p ∈ positions (some X) (identities lines) := List.getElem?_mem hj
  have hpX := (mem_positions _ _ _).1 hmem
  have hplt : p < lines.length := by
    have := positions_lt _ _ _ hmem
    simpa [identities] using this
  have hidp : (attributed Scan.init.scratch lines)[p]? = some X := by
    rw [← hids, List.getElem?_map] at hpX
    cases hq : (attributed Scan.init.scratch lines)[p]? with
    | none => rw [hq] at hpX; cases hpX
    | some Y =>
      rw [hq] at hpX
      simp only [Option.map_some', Option.some.injEq] at hpX
      rw [hpX]
  have hline : lines[p]? = some lines[p] := List.getElem?_eq_getElem hplt
  rw [hinv.data_eq p X lines[p] hidp hline, hline]
  have hw : window X (attributed Scan.init.scratch lines) = window (some X) (identities lines) := by
    rw [← hids, window_map some (Option.some_injective _)]
  rw [hw]
  by_cases hc : cleared (positions (some X) (identities lines)).length ≤ j
  · rw [if_pos hc, if_pos ((mem_window_iff _ _ j p hj).2 hc)]
  · rw [if_neg hc, if_neg (fun hin => hc ((mem_window_iff _ _ j p hj).1 hin))]

theorem dedupe_upto (lines : List String) (h : ∀ l ∈ lines, hasToken l = true)
    (X : String) (k p : Nat) (hk : (positions (some X) (identities lines))[k]? = some p) :
    ∃ out, dedupe (lines.take (p + 1)) = some out ∧ out.length = p + 1 ∧
      ∀ j q, j ≤ k → (positions (some X) (identities lines))[j]? = some q →
        out[q]? = if cleared (k + 1) ≤ j then lines[q]? else some "" := by
  have htake : ∀ l ∈ lines.take (p + 1), hasToken l = true :=
    fun l hl => h l (List.mem_of_mem_take hl)
  obtain ⟨out, hout, hlen, hspec⟩ := dedupe_tokens (lines.take (p + 1)) htake
  have hplt : p < lines.length := by
    have := positions_lt _ _ _ (List.getElem?_mem hk)
    simpa [identities] using this
  have hklt : k < (positions (some X) (identities lines)).length :=
    (List.getElem?_eq_some.1 hk).1
  have hpos : positions (some X) (identities (lines.take (p + 1))) =
      (positions (some X) (identities lines)).take (k + 1) := by
    unfold identities
    rw [List.map_take]
    exact positions_take_at _ _ k p hk
  refine ⟨out, hout, by rw [hlen, List.length_take]; omega, ?_⟩
  intro j q hjk hq
  have hq1 : (positions (some X) (identities (lines.take (p + 1))))[j]? = some q := by
    rw [hpos, List.getElem?_take_of_lt (by omega), hq]
  have hqlt : q < p + 1 := by
    have := positions_lt _ _ _ (List.getElem?_mem hq1)
    simp only [identities, List.length_map, List.length_take] at this
    omega
  rw [hspec X j q hq1, hpos, List.length_take, Nat.min_eq_left (by omega),
    List.getElem?_take_of_lt hqlt]

theorem positions_length {α : Type} [DecidableEq α] [BEq α] [LawfulBEq α] (a : α)
    (l : List α) :
    (positions a l).length = l.count a := by
  induction l using List.reverseRecOn with
  | nil => rfl
  | append_singleton l b ih =>
    rw [positions_snoc, List.length_append, ih, List.count_append]
    by_cases h : b = a <;> simp [h, List.count_cons]

theorem line_at (lines : List String) (X : String) (p : Nat)
    (h : (identities lines)[p]? = some (some X)) :
    ∃ line, lines[p]? = some line ∧ firstToken line = some X ∧ line ≠ "" := by
  unfold identities at h
  rw [List.getElem?_map] at h
  cases hl : lines[p]? with
  | none => rw [hl] at h; cases h
  | some line =>
    rw [hl] at h
    simp only [Option.map_some', Option.some.injEq] at h
    exact ⟨line, rfl, h, firstToken_ne_empty line X h⟩

theorem dedupe_tokens_window (lines : List String) (h : ∀ l ∈ lines, hasToken l = true) :
    ∃ out, dedupe lines = some out ∧ out.length = lines.length ∧
      ∀ X p, (identities lines)[p]? = some (some X) →
        out[p]? = if p ∈ window (some X) (identities lines) then lines[p]? else some "" := by
  obtain ⟨out, hout, hlen, hspec⟩ := dedupe_tokens lines h
  refine ⟨out, hout, hlen, ?_⟩
  intro X p hp
  obtain ⟨j, hj⟩ := List.getElem?_of_mem ((mem_positions _ _ _).2 hp)
  rw [hspec X j p hj]
  by_cases hc : cleared (positions (some X) (identities lines)).length ≤ j
  · rw [if_pos hc, if_pos ((mem_window_iff _ _ j p hj).2 hc)]
  · rw [if_neg hc, if_neg (fun hin => hc ((mem_window_iff _ _ j p hj).1 hin))]

/-! ## The properties -/

/-- C1: for every input sequence of lines, blank and malformed lines included,
`dedupe` returns a sequence whose length is exactly the length of the input. -/
theorem C1_output_length (lines : List String) :
    ∃ out, dedupe lines = some out ∧ out.length = lines.length := by
  obtain ⟨s, hrun, hinv⟩ := run_inv lines
  exact ⟨s.data, by simp [dedupe, hrun], hinv.length_eq⟩

/-- C2: for every input and every index `i` below its length, entry `i` of the
output of `dedupe` is either exactly input line `i` or the empty string; no
line moves to another index or is altered in any other way. -/
theorem C2_entry_is_line_or_empty (lines : List String) :
    ∃ out, dedupe lines = some out ∧ out.length = lines.length ∧
      ∀ i, i < lines.length → out[i]? = lines[i]? ∨ out[i]? = some "" := by
  obtain ⟨s, hrun, hinv⟩ := run_inv lines
  refine ⟨s.data, by simp [dedupe, hrun], hinv.length_eq, ?_⟩
  intro i hi
  have hilt : i < (attributed Scan.init.scratch lines).length := by
    rw [attributed_length]
    exact hi
  have hdata := hinv.data_eq i _ lines[i] (List.getElem?_eq_getElem hilt)
    (List.getElem?_eq_getElem hi)
  rw [hdata, List.getElem?_eq_getElem hi]
  split
  · exact Or.inl rfl
  · exact Or.inr rfl

/-- C3: when every line has a token, an identity that is the identity of
exactly one or exactly two lines of the whole input is never tombstoned: the
output holds the original line at each of its positions. -/
theorem C3_once_or_twice_untouched (lines : List String) (X : String)
    (htok : ∀ l ∈ lines, hasToken l = true)
    (hcount : (identities lines).count (some X) = 1 ∨ (identities lines).count (some X) = 2) :
    ∃ out, dedupe lines = some out ∧
      ∀ p : Nat, (identities lines)[p]? = some (some X) → out[p]? = lines[p]? := by
  obtain ⟨out, hout, _, hspec⟩ := dedupe_tokens lines htok
  refine ⟨out, hout, ?_⟩
  intro p hp
  obtain ⟨j, hj⟩ := List.getElem?_of_mem ((mem_positions _ _ _).2 hp)
  rw [hspec X j p hj, positions_length]
  have hc : cleared ((identities lines).count (some X)) ≤ j := by
    rcases hcount with h1 | h2
    · rw [h1]
      exact Nat.zero_le j
    · rw [h2]
      exact Nat.zero_le j
  rw [if_pos hc]

/-- C3, on the scenario of the specification: `bob` has two lines, and the four
lines come back unchanged at indices 0 to 3. -/
theorem C3_witness :
    (∀ l ∈ ["bob 1.1.1.1 10", "may 2.2.2.2 20", "bob 3.3.3.3 30", "doe 4.4.4.4 40"],
        hasToken l = true) ∧
    (identities ["bob 1.1.1.1 10", "may 2.2.2.2 20", "bob 3.3.3.3 30",
        "doe 4.4.4.4 40"]).count (some "bob") = 2 ∧
    dedupe ["bob 1.1.1.1 10", "may 2.2.2.2 20", "bob 3.3.3.3 30", "doe 4.4.4.4 40"] =
      some ["bob 1.1.1.1 10", "may 2.2.2.2 20", "bob 3.3.3.3 30", "doe 4.4.4.4 40"] ∧
    ∃ out, dedupe ["bob 1.1.1.1 10", "may 2.2.2.2 20", "bob 3.3.3.3 30", "doe 4.4.4.4 40"] =
        some out ∧
      ∀ p : Nat, (identities ["bob 1.1.1.1 10", "may 2.2.2.2 20", "bob 3.3.3.3 30",
          "doe 4.4.4.4 40"])[p]? = some (some "bob") →
        out[p]? = ["bob 1.1.1.1 10", "may 2.2.2.2 20", "bob 3.3.3.3 30", "doe 4.4.4.4 40"][p]? :=
  ⟨by decide, by decide, by decide,
   C3_once_or_twice_untouched
     ["bob 1.1.1.1 10", "may 2.2.2.2 20", "bob 3.3.3.3 30", "doe 4.4.4.4 40"] "bob"
     (by decide) (Or.inr (by decide))⟩

/-- C4: when every line has a token and the first three occurrences of an
identity are at `p1 < p2 < p3`, the output of `dedupe` on the input prefix
ending at `p3` is empty at `p1` and at `p2` and holds the original line at
`p3`. -/
theorem C4_third_occurrence_clears_two (lines : List String) (X : String) (p1 p2 p3 : Nat)
    (htok : ∀ l ∈ lines, hasToken l = true)
    (hocc : (positions (some X) (identities lines)).take 3 = [p1, p2, p3]) :
    ∃ out, dedupe (lines.take (p3 + 1)) = some out ∧ out.length = p3 + 1 ∧
      p1 < p2 ∧ p2 < p3 ∧
      out[p1]? = some "" ∧ out[p2]? = some "" ∧ out[p3]? = lines[p3]? := by
  have h0 : (positions (some X) (identities lines))[0]? = some p1 := by
    have := congrArg (fun l => l[0]?) hocc
    simpa [List.getElem?_take] using this
  have h1 : (positions (some X) (identities lines))[1]? = some p2 := by
    have := congrArg (fun l => l[1]?) hocc
    simpa [List.getElem?_take] using this
  have h2 : (positions (some X) (identities lines))[2]? = some p3 := by
    have := congrArg (fun l => l[2]?) hocc
    simpa [List.getElem?_take] using this
  have hsorted : ([p1, p2, p3] : List Nat).Pairwise (fun x y => x < y) := by
    rw [← hocc]
    exact (positions_pairwise _ _).sublist (List.take_sublist _ _)
  obtain ⟨out, hout, hlen, hspec⟩ := dedupe_upto lines htok X 2 p3 h2
  refine ⟨out, hout, hlen, ?_, ?_, ?_, ?_, ?_⟩
  · simp only [List.pairwise_cons] at hsorted
    exact hsorted.1 p2 (by simp)
  · simp only [List.pairwise_cons] at hsorted
    exact hsorted.2.1 p3 (by simp)
  · rw [hspec 0 p1 (by omega) h0, if_neg (by decide)]
  · rw [hspec 1 p2 (by omega) h1, if_neg (by decide)]
  · rw [hspec 2 p3 (by omega) h2, if_pos (by decide)]

/-- C4, on the scenario of the specification: three consecutive lines of `bob`
at positions 0, 1, 2 leave positions 0 and 1 empty and position 2 with its
line. -/
theorem C4_witness :
    (∀ l ∈ ["bob 1.1.1.1 10", "bob 2.2.2.2 20", "bob 3.3.3.3 30"], hasToken l = true) ∧
    (positions (some "bob")
      (identities ["bob 1.1.1.1 10", "bob 2.2.2.2 20", "bob 3.3.3.3 30"])).take 3 = [0, 1, 2] ∧
    dedupe ["bob 1.1.1.1 10", "bob 2.2.2.2 20", "bob 3.3.3.3 30"] =
      some ["", "", "bob 3.3.3.3 30"] ∧
    ∃ out, dedupe (["bob 1.1.1.1 10", "bob 2.2.2.2 20", "bob 3.3.3.3 30"].take (2 + 1)) =
        some out ∧ out.length = 2 + 1 ∧ 0 < 1 ∧ 1 < 2 ∧
      out[0]? = some "" ∧ out[1]? = some "" ∧
      out[2]? = ["bob 1.1.1.1 10", "bob 2.2.2.2 20", "bob 3.3.3.3 30"][2]? :=
  ⟨by decide, by decide, by decide,
   C4_third_occurrence_clears_two ["bob 1.1.1.1 10", "bob 2.2.2.2 20", "bob 3.3.3.3 30"]
     "bob" 0 1 2 (by decide) (by decide)⟩

/-- C5 as stated fails: in four lines of `bob` the positions 1 < 2 < 3 are
occurrences with none between them, yet once line 3 is processed position 2
still holds its line (line 2 had already cleared positions 0 and 1). -/
theorem C5_counterexample :
    (∀ l ∈ ["bob 1.1.1.1 10", "bob 2.2.2.2 20", "bob 3.3.3.3 30", "bob 4.4.4.4 40"],
        hasToken l = true) ∧
    positions (some "bob")
      (identities ["bob 1.1.1.1 10", "bob 2.2.2.2 20", "bob 3.3.3.3 30", "bob 4.4.4.4 40"]) =
      [0] ++ 1 :: 2 :: 3 :: [] ∧
    dedupe (["bob 1.1.1.1 10", "bob 2.2.2.2 20", "bob 3.3.3.3 30", "bob 4.4.4.4 40"].take
      (3 + 1)) = some ["", "", "bob 3.3.3.3 30", "bob 4.4.4.4 40"] ∧
    ¬ ∃ out,
        dedupe (["bob 1.1.1.1 10", "bob 2.2.2.2 20", "bob 3.3.3.3 30", "bob 4.4.4.4 40"].take
          (3 + 1)) = some out ∧
        out[1]? = some "" ∧ out[2]? = some "" ∧
        out[3]? = ["bob 1.1.1.1 10", "bob 2.2.2.2 20", "bob 3.3.3.3 30", "bob 4.4.4.4 40"][3]? := by
  refine ⟨by decide, by decide, by decide, ?_⟩
  rintro ⟨out, hout, _, h2, _⟩
  have e : dedupe (["bob 1.1.1.1 10", "bob 2.2.2.2 20", "bob 3.3.3.3 30",
      "bob 4.4.4.4 40"].take (3 + 1)) = some ["", "", "bob 3.3.3.3 30", "bob 4.4.4.4 40"] := by
    decide
  obtain rfl := Option.some.inj (e.symm.trans hout)
  exact absurd h2 (by decide)

/-- C5, amended: when every line has a token and `p1 < p2 < p3` are occurrences
of an identity with none between them, the output of `dedupe` on the prefix
ending at `p3` is empty at `p1` and holds the original line at `p3`; at `p2`
it is empty when the number of occurrences before `p1` is even (`p1` is the
1st, 3rd, 5th, ... occurrence) and holds the original line otherwise. -/
theorem C5_consecutive_triple (lines : List String) (X : String) (p1 p2 p3 : Nat)
    (before after : List Nat) (htok : ∀ l ∈ lines, hasToken l = true)
    (hocc : positions (some X) (identities lines) = before ++ p1 :: p2 :: p3 :: after) :
    ∃ out, dedupe (lines.take (p3 + 1)) = some out ∧ out.length = p3 + 1 ∧
      out[p1]? = some "" ∧
      out[p2]? = (if before.length % 2 = 0 then some "" else lines[p2]?) ∧
      out[p3]? = lines[p3]? := by
  have h1 : (positions (some X) (identities lines))[before.length]? = some p1 := by
    rw [hocc, List.getElem?_append_right (Nat.le_refl _)]
    simp
  have h2 : (positions (some X) (identities lines))[before.length + 1]? = some p2 := by
    rw [hocc, List.getElem?_append_right (by omega)]
    simp
  have h3 : (positions (some X) (identities lines))[before.length + 2]? = some p3 := by
    rw [hocc, List.getElem?_append_right (by omega)]
    simp
  obtain ⟨out, hout, hlen, hspec⟩ := dedupe_upto lines htok X (before.length + 2) p3 h3
  refine ⟨out, hout, hlen, ?_, ?_, ?_⟩
  · rw [hspec _ p1 (by omega) h1, if_neg]
    unfold cleared
    omega
  · rw [hspec _ p2 (by omega) h2]
    by_cases hpar : before.length % 2 = 0
    · rw [if_pos hpar, if_neg]
      unfold cleared
      omega
    · rw [if_neg hpar, if_pos]
      unfold cleared
      omega
  · rw [hspec _ p3 (by omega) h3, if_pos]
    unfold cleared
    omega

/-- C5, amended, on five lines where `bob` occurs at 0, 2, 3, 4: the triple
0 < 2 < 3 starts at the first occurrence and clears 0 and 2. -/
theorem C5_witness :
    (∀ l ∈ ["bob 1.1.1.1 10", "may 2.2.2.2 20", "bob 3.3.3.3 30", "bob 4.4.4.4 40",
        "bob 5.5.5.5 50"], hasToken l = true) ∧
    positions (some "bob") (identities ["bob 1.1.1.1 10", "may 2.2.2.2 20", "bob 3.3.3.3 30",
        "bob 4.4.4.4 40", "bob 5.5.5.5 50"]) = [] ++ 0 :: 2 :: 3 :: [4] ∧
    ∃ out, dedupe (["bob 1.1.1.1 10", "may 2.2.2.2 20", "bob 3.3.3.3 30", "bob 4.4.4.4 40",
        "bob 5.5.5.5 50"].take (3 + 1)) = some out ∧ out.length = 3 + 1 ∧
      out[0]? = some "" ∧
      out[2]? = (if ([] : List Nat).length % 2 = 0 then some "" else
        ["bob 1.1.1.1 10", "may 2.2.2.2 20", "bob 3.3.3.3 30", "bob 4.4.4.4 40",
          "bob 5.5.5.5 50"][2]?) ∧
      out[3]? = ["bob 1.1.1.1 10", "may 2.2.2.2 20", "bob 3.3.3.3 30", "bob 4.4.4.4 40",
        "bob 5.5.5.5 50"][3]? :=
  ⟨by decide, by decide,
   C5_consecutive_triple ["bob 1.1.1.1 10", "may 2.2.2.2 20", "bob 3.3.3.3 30",
     "bob 4.4.4.4 40", "bob 5.5.5.5 50"] "bob" 0 2 3 [] [4] (by decide) (by decide)⟩

/-- C6: when every line has a token and an identity occurs exactly six times,
at `p1 < ... < p6` with lines of other identities anywhere between, the final
output is empty at `p1`, `p2`, `p3`, `p4` and holds the original, non-empty
line at `p5` and at `p6`. -/
theorem C6_six_occurrences (lines : List String) (X : String) (p1 p2 p3 p4 p5 p6 : Nat)
    (htok : ∀ l ∈ lines, hasToken l = true)
    (hocc : positions (some X) (identities lines) = [p1, p2, p3, p4, p5, p6]) :
    ∃ out, dedupe lines = some out ∧
      out[p1]? = some "" ∧ out[p2]? = some "" ∧ out[p3]? = some "" ∧ out[p4]? = some "" ∧
      out[p5]? = lines[p5]? ∧ out[p5]? ≠ some "" ∧ out[p5]? ≠ none ∧
      out[p6]? = lines[p6]? ∧ out[p6]? ≠ some "" ∧ out[p6]? ≠ none := by
  obtain ⟨out, hout, _, hspec⟩ := dedupe_tokens lines htok
  have hs := hspec X
  rw [hocc] at hs
  have e1 := hs 0 p1 rfl
  have e2 := hs 1 p2 rfl
  have e3 := hs 2 p3 rfl
  have e4 := hs 3 p4 rfl
  have e5 := hs 4 p5 rfl
  have e6 := hs 5 p6 rfl
  have hc : cleared [p1, p2, p3, p4, p5, p6].length = 4 := by
    simp [cleared]
  rw [hc] at e1 e2 e3 e4 e5 e6
  rw [if_neg (by decide)] at e1 e2 e3 e4
  rw [if_pos (by decide)] at e5 e6
  have m5 : (identities lines)[p5]? = some (some X) :=
    (mem_positions _ _ _).1 (by rw [hocc]; simp)
  have m6 : (identities lines)[p6]? = some (some X) :=
    (mem_positions _ _ _).1 (by rw [hocc]; simp)
  obtain ⟨l5, hl5, _, hne5⟩ := line_at lines X p5 m5
  obtain ⟨l6, hl6, _, hne6⟩ := line_at lines X p6 m6
  refine ⟨out, hout, e1, e2, e3, e4, e5, ?_, ?_, e6, ?_, ?_⟩
  · rw [e5, hl5]
    exact fun h => hne5 (Option.some.inj h)
  · rw [e5, hl5]
    exact fun h => Option.noConfusion h
  · rw [e6, hl6]
    exact fun h => hne6 (Option.some.inj h)
  · rw [e6, hl6]
    exact fun h => Option.noConfusion h

/-- C6 on an input where the six lines of `bob` are interleaved with lines of
`may`. -/
theorem C6_witness :
    (∀ l ∈ ["bob 1 1", "may 1 1", "bob 2 2", "bob 3 3", "may 2 2", "bob 4 4", "bob 5 5",
        "may 3 3", "bob 6 6"], hasToken l = true) ∧
    positions (some "bob") (identities ["bob 1 1", "may 1 1", "bob 2 2", "bob 3 3", "may 2 2",
        "bob 4 4", "bob 5 5", "may 3 3", "bob 6 6"]) = [0, 2, 3, 5, 6, 8] ∧
    dedupe ["bob 1 1", "may 1 1", "bob 2 2", "bob 3 3", "may 2 2", "bob 4 4", "bob 5 5",
        "may 3 3", "bob 6 6"] =
      some ["", "", "", "", "", "", "bob 5 5", "may 3 3", "bob 6 6"] ∧
    ∃ out, dedupe ["bob 1 1", "may 1 1", "bob 2 2", "bob 3 3", "may 2 2", "bob 4 4", "bob 5 5",
        "may 3 3", "bob 6 6"] = some out ∧
      out[0]? = some "" ∧ out[2]? = some "" ∧ out[3]? = some "" ∧ out[5]? = some "" ∧
      out[6]? = ["bob 1 1", "may 1 1", "bob 2 2", "bob 3 3", "may 2 2", "bob 4 4", "bob 5 5",
        "may 3 3", "bob 6 6"][6]? ∧ out[6]? ≠ some "" ∧ out[6]? ≠ none ∧
      out[8]? = ["bob 1 1", "may 1 1", "bob 2 2", "bob 3 3", "may 2 2", "bob 4 4", "bob 5 5",
        "may 3 3", "bob 6 6"][8]? ∧ out[8]? ≠ some "" ∧ out[8]? ≠ none :=
  ⟨by decide, by decide, by decide,
   C6_six_occurrences ["bob 1 1", "may 1 1", "bob 2 2", "bob 3 3", "may 2 2", "bob 4 4",
     "bob 5 5", "may 3 3", "bob 6 6"] "bob" 0 2 3 5 6 8 (by decide) (by decide)⟩

theorem identity_at (lines : List String) (h : ∀ l ∈ lines, hasToken l = true) (i : Nat)
    (hi : i < lines.length) :
    ∃ X, (identities lines)[i]? = some (some X) ∧ lines[i]? = some lines[i] ∧ lines[i] ≠ "" := by
  have hl := h lines[i] (List.getElem_mem hi)
  unfold hasToken at hl
  obtain ⟨X, hX⟩ := Option.isSome_iff_exists.1 hl
  refine ⟨X, ?_, List.getElem?_eq_getElem hi, firstToken_ne_empty _ X hX⟩
  unfold identities
  rw [List.getElem?_map, List.getElem?_eq_getElem hi, Option.map_some', hX]

/-- C7: for two inputs of the same length whose lines all have a token and have
the same identity at every position, `dedupe` empties exactly the same
positions; the text after the identity token has no influence. -/
theorem C7_other_fields_ignored (lines1 lines2 : List String)
    (htok1 : ∀ l ∈ lines1, hasToken l = true) (htok2 : ∀ l ∈ lines2, hasToken l = true)
    (hid : identities lines1 = identities lines2) :
    ∃ out1 out2, dedupe lines1 = some out1 ∧ dedupe lines2 = some out2 ∧
      out1.length = out2.length ∧ ∀ i : Nat, out1[i]? = some "" ↔ out2[i]? = some "" := by
  obtain ⟨out1, hout1, hlen1, hspec1⟩ := dedupe_tokens_window lines1 htok1
  obtain ⟨out2, hout2, hlen2, hspec2⟩ := dedupe_tokens_window lines2 htok2
  have hlen : lines1.length = lines2.length := by
    have := congrArg List.length hid
    simpa [identities] using this
  refine ⟨out1, out2, hout1, hout2, by omega, ?_⟩
  intro i
  by_cases hi : i < lines1.length
  · obtain ⟨X, hX, hl1, hne1⟩ := identity_at lines1 htok1 i hi
    obtain ⟨Y, hY, hl2, hne2⟩ := identity_at lines2 htok2 i (by omega)
    have hXY : X = Y := by
      rw [hid, hY] at hX
      exact (Option.some.inj (Option.some.inj hX)).symm
    subst hXY
    rw [hspec1 X i hX, hspec2 X i hY, hid, hl1, hl2]
    by_cases hw : i ∈ window (some X) (identities lines2)
    · simp only [if_pos hw, Option.some.injEq, hne1, hne2]
    · simp only [if_neg hw]
  · rw [List.getElem?_eq_none (by omega), List.getElem?_eq_none (by omega)]

/-- C7 on two inputs that differ in every address and port. -/
theorem C7_witness :
    (∀ l ∈ ["bob 1.1.1.1 10", "may 2.2.2.2 20", "bob 3.3.3.3 30", "bob 4.4.4.4 40"],
        hasToken l = true) ∧
    (∀ l ∈ ["bob 9.9.9.9 99", "may x", "bob", "bob 8.8.8.8 88 extra"], hasToken l = true) ∧
    identities ["bob 1.1.1.1 10", "may 2.2.2.2 20", "bob 3.3.3.3 30", "bob 4.4.4.4 40"] =
      identities ["bob 9.9.9.9 99", "may x", "bob", "bob 8.8.8.8 88 extra"] ∧
    ∃ out1 out2,
      dedupe ["bob 1.1.1.1 10", "may 2.2.2.2 20", "bob 3.3.3.3 30", "bob 4.4.4.4 40"] =
        some out1 ∧
      dedupe ["bob 9.9.9.9 99", "may x", "bob", "bob 8.8.8.8 88 extra"] = some out2 ∧
      out1.length = out2.length ∧ ∀ i : Nat, out1[i]? = some "" ↔ out2[i]? = some "" :=
  ⟨by decide, by decide, by decide,
   C7_other_fields_ignored
     ["bob 1.1.1.1 10", "may 2.2.2.2 20", "bob 3.3.3.3 30", "bob 4.4.4.4 40"]
     ["bob 9.9.9.9 99", "may x", "bob", "bob 8.8.8.8 88 extra"]
     (by decide) (by decide) (by decide)⟩

/-- C8: when every line has a token, for every prefix of the input (the first
`m` lines) and every identity, the output of `dedupe` on that prefix holds at
most two non-empty records whose line has that identity. -/
theorem C8_at_most_two_live (lines : List String) (m : Nat) (X : String)
    (htok : ∀ l ∈ lines, hasToken l = true) :
    ∃ out, dedupe (lines.take m) = some out ∧ (live X lines out).length ≤ 2 := by
  have htake : ∀ l ∈ lines.take m, hasToken l = true :=
    fun l hl => htok l (List.mem_of_mem_take hl)
  obtain ⟨out, hout, hlen, hspec⟩ := dedupe_tokens_window (lines.take m) htake
  refine ⟨out, hout, ?_⟩
  have hsub : live X lines out ⊆ window (some X) (identities (lines.take m)) := by
    intro i hi
    unfold live at hi
    simp only [List.mem_filter, List.mem_range, Bool.and_eq_true, decide_eq_true_eq] at hi
    obtain ⟨hilt, hid, hne⟩ := hi
    have him : i < m := by
      rw [hlen, List.length_take] at hilt
      omega
    have hid1 : (identities (lines.take m))[i]? = some (some X) := by
      unfold identities at hid ⊢
      rw [List.map_take, List.getElem?_take_of_lt him]
      exact hid
    by_contra hw
    rw [hspec X i hid1, if_neg hw] at hne
    exact hne rfl
  have hnd : (live X lines out).Nodup := (List.nodup_range _).filter _
  exact (List.subperm_of_subset hnd hsub).length_le.trans (window_length_le _ _)

/-- C8 on the prefix of length 4 of five lines of `bob`: two records are
live. -/
theorem C8_witness :
    (∀ l ∈ ["bob 1 1", "bob 2 2", "bob 3 3", "bob 4 4", "bob 5 5"], hasToken l = true) ∧
    dedupe (["bob 1 1", "bob 2 2", "bob 3 3", "bob 4 4", "bob 5 5"].take 4) =
      some ["", "", "bob 3 3", "bob 4 4"] ∧
    live "bob" ["bob 1 1", "bob 2 2", "bob 3 3", "bob 4 4", "bob 5 5"]
      ["", "", "bob 3 3", "bob 4 4"] = [2, 3] ∧
    ∃ out, dedupe (["bob 1 1", "bob 2 2", "bob 3 3", "bob 4 4", "bob 5 5"].take 4) = some out ∧
      (live "bob" ["bob 1 1", "bob 2 2", "bob 3 3", "bob 4 4", "bob 5 5"] out).length ≤ 2 :=
  ⟨by decide, by decide, by decide,
   C8_at_most_two_live ["bob 1 1", "bob 2 2", "bob 3 3", "bob 4 4", "bob 5 5"] 4 "bob"
     (by decide)⟩

/-- C9: when every line has a token and an identity occurs `n ≥ 1` times, the
final output keeps just its latest entry or its latest two.  For the
occurrence number `j + 1` at position `p`: if `n` is odd, the `n`-th
occurrence holds its original non-empty line and every earlier one is empty;
if `n` is even, the `(n-1)`-th and the `n`-th hold their lines and every
earlier one is empty. -/
theorem C9_latest_one_or_two (lines : List String) (X : String) (n : Nat)
    (htok : ∀ l ∈ lines, hasToken l = true)
    (hn : (identities lines).count (some X) = n) (hpos : 1 ≤ n) :
    ∃ out, dedupe lines = some out ∧
      ∀ j p, (positions (some X) (identities lines))[j]? = some p →
        (n % 2 = 1 →
          (j + 1 = n → out[p]? = lines[p]? ∧ out[p]? ≠ some "" ∧ out[p]? ≠ none) ∧
          (j + 1 < n → out[p]? = some "")) ∧
        (n % 2 = 0 →
          (n ≤ j + 2 → out[p]? = lines[p]? ∧ out[p]? ≠ some "" ∧ out[p]? ≠ none) ∧
          (j + 2 < n → out[p]? = some "")) := by
  obtain ⟨out, hout, _, hspec⟩ := dedupe_tokens lines htok
  refine ⟨out, hout, ?_⟩
  intro j p hj
  have hout_p := hspec X j p hj
  rw [positions_length, hn] at hout_p
  obtain ⟨line, hline, _, hne⟩ :=
    line_at lines X p ((mem_positions _ _ _).1 (List.getElem?_mem hj))
  have hkeep : cleared n ≤ j → out[p]? = lines[p]? ∧ out[p]? ≠ some "" ∧ out[p]? ≠ none := by
    intro hc
    rw [if_pos hc] at hout_p
    rw [hout_p, hline]
    exact ⟨rfl, fun h => hne (Option.some.inj h), fun h => Option.noConfusion h⟩
  have hdrop : ¬ cleared n ≤ j → out[p]? = some "" := by
    intro hc
    rw [if_neg hc] at hout_p
    exact hout_p
  unfold cleared at hkeep hdrop
  refine ⟨fun hodd => ⟨fun h => hkeep (by omega), fun h => hdrop (by omega)⟩,
    fun hev => ⟨fun h => hkeep (by omega), fun h => hdrop (by omega)⟩⟩

/-- C9 on five lines of `bob` among other lines: only the fifth survives. -/
theorem C9_witness :
    (∀ l ∈ ["bob 1 1", "may 1 1", "bob 2 2", "bob 3 3", "bob 4 4", "doe 1 1", "bob 5 5"],
        hasToken l = true) ∧
    (identities ["bob 1 1", "may 1 1", "bob 2 2", "bob 3 3", "bob 4 4", "doe 1 1",
        "bob 5 5"]).count (some "bob") = 5 ∧
    dedupe ["bob 1 1", "may 1 1", "bob 2 2", "bob 3 3", "bob 4 4", "doe 1 1", "bob 5 5"] =
      some ["", "may 1 1", "", "", "", "doe 1 1", "bob 5 5"] ∧
    ∃ out, dedupe ["bob 1 1", "may 1 1", "bob 2 2", "bob 3 3", "bob 4 4", "doe 1 1",
        "bob 5 5"] = some out ∧
      ∀ j p, (positions (some "bob") (identities ["bob 1 1", "may 1 1", "bob 2 2", "bob 3 3",
          "bob 4 4", "doe 1 1", "bob 5 5"]))[j]? = some p →
        (5 % 2 = 1 →
          (j + 1 = 5 → out[p]? = ["bob 1 1", "may 1 1", "bob 2 2", "bob 3 3", "bob 4 4",
              "doe 1 1", "bob 5 5"][p]? ∧ out[p]? ≠ some "" ∧ out[p]? ≠ none) ∧
          (j + 1 < 5 → out[p]? = some "")) ∧
        (5 % 2 = 0 →
          (5 ≤ j + 2 → out[p]? = ["bob 1 1", "may 1 1", "bob 2 2", "bob 3 3", "bob 4 4",
              "doe 1 1", "bob 5 5"][p]? ∧ out[p]? ≠ some "" ∧ out[p]? ≠ none) ∧
          (j + 2 < 5 → out[p]? = some "")) :=
  ⟨by decide, by decide, by decide,
   C9_latest_one_or_two ["bob 1 1", "may 1 1", "bob 2 2", "bob 3 3", "bob 4 4", "doe 1 1",
     "bob 5 5"] "bob" 5 (by decide) (by decide) (by decide)⟩

/-- C10 as stated fails at `k = 2`: in six lines of `bob`, once the 6th
occurrence (position 5) is processed, the 5th occurrence (position 4) still
holds its line; the 6th arrival finds one pending position and clears
nothing. -/
theorem C10_counterexample :
    (∀ l ∈ ["bob 1 1", "bob 2 2", "bob 3 3", "bob 4 4", "bob 5 5", "bob 6 6"],
        hasToken l = true) ∧
    positions (some "bob")
      (identities ["bob 1 1", "bob 2 2", "bob 3 3", "bob 4 4", "bob 5 5", "bob 6 6"]) =
      [0, 1, 2, 3, 4, 5] ∧
    dedupe (["bob 1 1", "bob 2 2", "bob 3 3", "bob 4 4", "bob 5 5", "bob 6 6"].take (5 + 1)) =
      some ["", "", "", "", "bob 5 5", "bob 6 6"] ∧
    ¬ ∃ out,
        dedupe (["bob 1 1", "bob 2 2", "bob 3 3", "bob 4 4", "bob 5 5", "bob 6 6"].take
          (5 + 1)) = some out ∧
        out[4]? = some "" ∧ out[3]? = some "" := by
  refine ⟨by decide, by decide, by decide, ?_⟩
  rintro ⟨out, hout, h4, _⟩
  have e : dedupe (["bob 1 1", "bob 2 2", "bob 3 3", "bob 4 4", "bob 5 5",
      "bob 6 6"].take (5 + 1)) = some ["", "", "", "", "bob 5 5", "bob 6 6"] := by
    decide
  obtain rfl := Option.some.inj (e.symm.trans hout)
  exact absurd h4 (by decide)

/-- C10, amended: when every line has a token and the occurrences number
`m - 2`, `m - 1`, `m` of an identity (`m ≥ 3`) are at `p1`, `p2`, `p3`, the
output of the prefix ending at `p3` is empty at `p1`, and at `p2` it is empty
when `m` is odd (the 3rd, 5th, 7th, ... arrival clears the two occurrences
before it) and holds the original line when `m` is even. -/
theorem C10_odd_occurrence_clears_two (lines : List String) (X : String) (m p1 p2 p3 : Nat)
    (htok : ∀ l ∈ lines, hasToken l = true) (hm : 3 ≤ m)
    (h1 : (positions (some X) (identities lines))[m - 3]? = some p1)
    (h2 : (positions (some X) (identities lines))[m - 2]? = some p2)
    (h3 : (positions (some X) (identities lines))[m - 1]? = some p3) :
    ∃ out, dedupe (lines.take (p3 + 1)) = some out ∧
      out[p1]? = some "" ∧
      out[p2]? = (if m % 2 = 1 then some "" else lines[p2]?) := by
  obtain ⟨out, hout, _, hspec⟩ := dedupe_upto lines htok X (m - 1) p3 h3
  refine ⟨out, hout, ?_, ?_⟩
  · rw [hspec _ p1 (by omega) h1, if_neg]
    unfold cleared
    omega
  · rw [hspec _ p2 (by omega) h2]
    by_cases hpar : m % 2 = 1
    · rw [if_pos hpar, if_neg]
      unfold cleared
      omega
    · rw [if_neg hpar, if_pos]
      unfold cleared
      omega

/-- C10, amended, at the 9th occurrence of nine lines of `bob`: positions 6
and 7 are empty once position 8 is processed. -/
theorem C10_witness :
    (∀ l ∈ ["bob 1 1", "bob 2 2", "bob 3 3", "bob 4 4", "bob 5 5", "bob 6 6", "bob 7 7",
        "bob 8 8", "bob 9 9"], hasToken l = true) ∧
    3 ≤ 9 ∧
    positions (some "bob") (identities ["bob 1 1", "bob 2 2", "bob 3 3", "bob 4 4", "bob 5 5",
        "bob 6 6", "bob 7 7", "bob 8 8", "bob 9 9"]) = [0, 1, 2, 3, 4, 5, 6, 7, 8] ∧
    ∃ out, dedupe (["bob 1 1", "bob 2 2", "bob 3 3", "bob 4 4", "bob 5 5", "bob 6 6",
        "bob 7 7", "bob 8 8", "bob 9 9"].take (8 + 1)) = some out ∧
      out[6]? = some "" ∧
      out[7]? = (if 9 % 2 = 1 then some "" else
        ["bob 1 1", "bob 2 2", "bob 3 3", "bob 4 4", "bob 5 5", "bob 6 6", "bob 7 7",
          "bob 8 8", "bob 9 9"][7]?) :=
  ⟨by decide, by decide, by decide,
   C10_odd_occurrence_clears_two ["bob 1 1", "bob 2 2", "bob 3 3", "bob 4 4", "bob 5 5",
     "bob 6 6", "bob 7 7", "bob 8 8", "bob 9 9"] "bob" 9 6 7 8
     (by decide) (by decide) (by decide) (by decide) (by decide)⟩

/-! ## The scan state on inputs whose lines all carry a token -/

theorem pairwise_lt_ext (l1 l2 : List Nat) (h1 : l1.Pairwise (fun x y => x < y))
    (h2 : l2.Pairwise (fun x y => x < y)) (h : ∀ i, i ∈ l1 ↔ i ∈ l2) : l1 = l2 := by
  have n1 : l1.Nodup := h1.imp (fun hlt => Nat.ne_of_lt hlt)
  have n2 : l2.Nodup := h2.imp (fun hlt => Nat.ne_of_lt hlt)
  exact List.eq_of_perm_of_sorted ((List.perm_ext_iff_of_nodup n1 n2).2 h) h1 h2

theorem window_pairwise {α : Type} [DecidableEq α] (a : α) (l : List α) :
    (window a l).Pairwise (fun x y => x < y) :=
  (positions_pairwise a l).sublist (List.drop_sublist _ _)

theorem run_tokens (lines : List String) (h : ∀ l ∈ lines, hasToken l = true) :
    ∃ s, run Scan.init lines = some s ∧ s.data.length = lines.length ∧
      s.index = lines.length ∧
      (∀ X, find s.occurs X =
        if some X ∈ identities lines then some (window (some X) (identities lines)) else none) ∧
      ∀ X p, (identities lines)[p]? = some (some X) →
        s.data[p]? = if p ∈ window (some X) (identities lines) then lines[p]? else some "" := by
  obtain ⟨s, hrun, hinv⟩ := run_inv lines
  obtain ⟨out, hout, _, hspec⟩ := dedupe_tokens_window lines h
  have hdata : out = s.data := by
    rw [dedupe, hrun] at hout
    exact (Option.some.inj hout).symm
  subst hdata
  have hids := attributed_tokens Scan.init.scratch lines h
  refine ⟨s, hrun, hinv.length_eq, hinv.index_eq, ?_, hspec⟩
  intro X
  have hmem : some X ∈ List.map some (attributed Scan.init.scratch lines) ↔
      X ∈ attributed Scan.init.scratch lines :=
    List.mem_map_of_injective (Option.some_injective _)
  rw [hinv.occurs_eq X, ← hids, window_map some (Option.some_injective _)]
  simp only [hmem]

theorem window_upto (lines : List String) (X : String) (k p : Nat)
    (hk : (positions (some X) (identities lines))[k]? = some p) :
    window (some X) (identities (lines.take (p + 1))) =
      ((positions (some X) (identities lines)).take (k + 1)).drop (cleared (k + 1)) := by
  have hklt : k < (positions (some X) (identities lines)).length :=
    (List.getElem?_eq_some.1 hk).1
  unfold window
  have hpos : positions (some X) (identities (lines.take (p + 1))) =
      (positions (some X) (identities lines)).take (k + 1) := by
    unfold identities
    rw [List.map_take]
    exact positions_take_at _ _ k p hk
  rw [hpos, List.length_take, Nat.min_eq_left (by omega)]

theorem live_eq_window (lines : List String) (X : String) (out : List String)
    (hlen : out.length = lines.length)
    (hspec : ∀ p : Nat, (identities lines)[p]? = some (some X) →
      out[p]? = if p ∈ window (some X) (identities lines) then lines[p]? else some "") :
    live X lines out = window (some X) (identities lines) := by
  apply pairwise_lt_ext _ _ ((List.pairwise_lt_range _).filter _) (window_pairwise _ _)
  intro i
  simp only [List.mem_filter, List.mem_range, Bool.and_eq_true, decide_eq_true_eq]
  constructor
  · rintro ⟨_, hid, hne⟩
    by_contra hw
    rw [hspec i hid, if_neg hw] at hne
    exact hne rfl
  · intro hw
    have hid := mem_window _ _ i hw
    obtain ⟨line, hline, _, hne⟩ := line_at lines X i hid
    have hilt : i < lines.length := (List.getElem?_eq_some.1 hline).1
    refine ⟨by omega, hid, ?_⟩
    rw [hspec i hid, if_pos hw, hline]
    exact fun h => hne (Option.some.inj h)

theorem live_take (lines : List String) (X : String) (out : List String) (m : Nat)
    (hlen : out.length ≤ m) : live X lines out = live X (lines.take m) out := by
  unfold live
  apply List.filter_congr
  intro i hi
  rw [List.mem_range] at hi
  unfold identities
  rw [List.map_take, List.getElem?_take_of_lt (by omega)]

theorem live_length (lines : List String) (h : ∀ l ∈ lines, hasToken l = true) :
    ∃ out, dedupe lines = some out ∧
      ∀ X, (live X lines out).length =
        (positions (some X) (identities lines)).length -
          cleared (positions (some X) (identities lines)).length := by
  obtain ⟨s, hrun, hlen, _, _, hdata⟩ := run_tokens lines h
  refine ⟨s.data, by simp [dedupe, hrun], ?_⟩
  intro X
  rw [live_eq_window lines X s.data hlen (hdata X), window_length]

/-- C11 as stated fails: on three lines of `bob` the first three occurrences
are at 0, 1, 2 and the output is empty at 0 and 1, but position 2 holds the
third line; the third record is stored after the two writes and is not
cleared. -/
theorem C11_counterexample :
    (positions (some "bob")
      (identities ["bob 1.1.1.1 10", "bob 2.2.2.2 20", "bob 3.3.3.3 30"])).take 3 = [0, 1, 2] ∧
    dedupe (["bob 1.1.1.1 10", "bob 2.2.2.2 20", "bob 3.3.3.3 30"].take (2 + 1)) =
      some ["", "", "bob 3.3.3.3 30"] ∧
    ¬ ∃ out,
        dedupe (["bob 1.1.1.1 10", "bob 2.2.2.2 20", "bob 3.3.3.3 30"].take (2 + 1)) =
          some out ∧
        out[0]? = some "" ∧ out[1]? = some "" ∧ out[2]? = some "" := by
  refine ⟨by decide, by decide, ?_⟩
  rintro ⟨out, hout, _, _, h2⟩
  have e : dedupe (["bob 1.1.1.1 10", "bob 2.2.2.2 20", "bob 3.3.3.3 30"].take (2 + 1)) =
      some ["", "", "bob 3.3.3.3 30"] := by
    decide
  obtain rfl := Option.some.inj (e.symm.trans hout)
  exact absurd h2 (by decide)

/-- C11, amended: when every line has a token and the first three occurrences
of an identity are at `p1 < p2 < p3`, the state after the prefix ending at `p3`
has the two predecessors cleared, the third record kept with its original
non-empty line, and the new window of the identity holding exactly `p3`. -/
theorem C11_third_record_kept (lines : List String) (X : String) (p1 p2 p3 : Nat)
    (htok : ∀ l ∈ lines, hasToken l = true)
    (hocc : (positions (some X) (identities lines)).take 3 = [p1, p2, p3]) :
    ∃ s, run Scan.init (lines.take (p3 + 1)) = some s ∧
      s.data[p1]? = some "" ∧ s.data[p2]? = some "" ∧
      s.data[p3]? = lines[p3]? ∧ s.data[p3]? ≠ some "" ∧ s.data[p3]? ≠ none ∧
      find s.occurs X = some [p3] := by
  have h2 : (positions (some X) (identities lines))[2]? = some p3 := by
    have := congrArg (fun l => l[2]?) hocc
    simpa [List.getElem?_take] using this
  have hsorted : ([p1, p2, p3] : List Nat).Pairwise (fun x y => x < y) := by
    rw [← hocc]
    exact (positions_pairwise _ _).sublist (List.take_sublist _ _)
  simp only [List.pairwise_cons] at hsorted
  have h13 : p1 < p3 := hsorted.1 p3 (by simp)
  have h23 : p2 < p3 := hsorted.2.1 p3 (by simp)
  have htake : ∀ l ∈ lines.take (p3 + 1), hasToken l = true :=
    fun l hl => htok l (List.mem_of_mem_take hl)
  obtain ⟨s, hrun, _, _, hfind, hdata⟩ := run_tokens (lines.take (p3 + 1)) htake
  have hpos : positions (some X) (identities (lines.take (p3 + 1))) = [p1, p2, p3] := by
    unfold identities
    rw [List.map_take]
    exact (positions_take_at _ _ 2 p3 h2).trans hocc
  have hwin : window (some X) (identities (lines.take (p3 + 1))) = [p3] := by
    rw [window_upto lines X 2 p3 h2, hocc]
    rfl
  have hid : ∀ p ∈ [p1, p2, p3], (identities (lines.take (p3 + 1)))[p]? = some (some X) := by
    intro p hp
    rw [← hpos] at hp
    exact (mem_positions _ _ _).1 hp
  have hid3 := hid p3 (by simp)
  obtain ⟨line, hline, _, hne⟩ := line_at (lines.take (p3 + 1)) X p3 hid3
  have hd3 : s.data[p3]? = some line := by
    rw [hdata X p3 hid3, hwin, if_pos (by simp), hline]
  refine ⟨s, hrun, ?_, ?_, ?_, ?_, ?_, ?_⟩
  · rw [hdata X p1 (hid p1 (by simp)), hwin, if_neg]
    simp only [List.mem_singleton]
    omega
  · rw [hdata X p2 (hid p2 (by simp)), hwin, if_neg]
    simp only [List.mem_singleton]
    omega
  · rw [hd3, ← hline, List.getElem?_take_of_lt (by omega)]
  · rw [hd3]
    exact fun h => hne (Option.some.inj h)
  · rw [hd3]
    exact fun h => Option.noConfusion h
  · rw [hfind X, if_pos (List.getElem?_mem hid3), hwin]

/-- C11, amended, on four lines where `bob` occurs at 0, 2, 3. -/
theorem C11_witness :
    (∀ l ∈ ["bob 1.1.1.1 10", "may 2.2.2.2 20", "bob 3.3.3.3 30", "bob 4.4.4.4 40"],
        hasToken l = true) ∧
    (positions (some "bob") (identities ["bob 1.1.1.1 10", "may 2.2.2.2 20",
        "bob 3.3.3.3 30", "bob 4.4.4.4 40"])).take 3 = [0, 2, 3] ∧
    ∃ s, run Scan.init (["bob 1.1.1.1 10", "may 2.2.2.2 20", "bob 3.3.3.3 30",
        "bob 4.4.4.4 40"].take (3 + 1)) = some s ∧
      s.data[0]? = some "" ∧ s.data[2]? = some "" ∧
      s.data[3]? = ["bob 1.1.1.1 10", "may 2.2.2.2 20", "bob 3.3.3.3 30",
        "bob 4.4.4.4 40"][3]? ∧ s.data[3]? ≠ some "" ∧ s.data[3]? ≠ none ∧
      find s.occurs "bob" = some [3] :=
  ⟨by decide, by decide,
   C11_third_record_kept ["bob 1.1.1.1 10", "may 2.2.2.2 20", "bob 3.3.3.3 30",
     "bob 4.4.4.4 40"] "bob" 0 2 3 (by decide) (by decide)⟩

/-- C12 as stated fails: no input has an occurring identity with zero live
records, because the line that triggers the clearing is itself kept.  On three
lines of `bob`, just after the trigger, `bob` has one live record. -/
theorem C12_counterexample :
    dedupe ["bob 1.1.1.1 10", "bob 2.2.2.2 20", "bob 3.3.3.3 30"] =
      some ["", "", "bob 3.3.3.3 30"] ∧
    live "bob" ["bob 1.1.1.1 10", "bob 2.2.2.2 20", "bob 3.3.3.3 30"]
      ["", "", "bob 3.3.3.3 30"] = [2] ∧
    ¬ ∃ lines X, (∀ l ∈ lines, hasToken l = true) ∧ some X ∈ identities lines ∧
        ∃ out, dedupe lines = some out ∧ (live X lines out).length = 0 := by
  refine ⟨by decide, by decide, ?_⟩
  rintro ⟨lines, X, htok, hmem, out, hout, h0⟩
  obtain ⟨out1, hout1, hlive⟩ := live_length lines htok
  obtain rfl := Option.some.inj (hout1.symm.trans hout)
  obtain ⟨i, hi⟩ := List.getElem?_of_mem hmem
  have hpos : 0 < (positions (some X) (identities lines)).length :=
    List.length_pos_of_mem ((mem_positions _ _ i).2 hi)
  have := hlive X
  rw [h0] at this
  unfold cleared at this
  omega

/-- C12, amended: for every input in which every line has a token, every
identity that occurs ends with one or two live records, never zero: one when
it occurs an odd number of times, two when it occurs an even number of
times. -/
theorem C12_one_or_two_live (lines : List String) (X : String)
    (htok : ∀ l ∈ lines, hasToken l = true) (hmem : some X ∈ identities lines) :
    ∃ out, dedupe lines = some out ∧
      (live X lines out).length =
        (if (identities lines).count (some X) % 2 = 1 then 1 else 2) := by
  obtain ⟨out, hout, hlive⟩ := live_length lines htok
  refine ⟨out, hout, ?_⟩
  obtain ⟨i, hi⟩ := List.getElem?_of_mem hmem
  have hpos : 0 < (positions (some X) (identities lines)).length :=
    List.length_pos_of_mem ((mem_positions _ _ i).2 hi)
  rw [hlive X]
  rw [positions_length] at hpos ⊢
  unfold cleared
  split <;> omega

/-- C12, amended, on an input where `bob` occurs three times and `may`
twice. -/
theorem C12_witness :
    (∀ l ∈ ["bob 1 1", "may 1 1", "bob 2 2", "may 2 2", "bob 3 3"], hasToken l = true) ∧
    some "may" ∈ identities ["bob 1 1", "may 1 1", "bob 2 2", "may 2 2", "bob 3 3"] ∧
    dedupe ["bob 1 1", "may 1 1", "bob 2 2", "may 2 2", "bob 3 3"] =
      some ["", "may 1 1", "", "may 2 2", "bob 3 3"] ∧
    ∃ out, dedupe ["bob 1 1", "may 1 1", "bob 2 2", "may 2 2", "bob 3 3"] = some out ∧
      (live "may" ["bob 1 1", "may 1 1", "bob 2 2", "may 2 2", "bob 3 3"] out).length =
        (if (identities ["bob 1 1", "may 1 1", "bob 2 2", "may 2 2",
          "bob 3 3"]).count (some "may") % 2 = 1 then 1 else 2) :=
  ⟨by decide, by decide, by decide,
   C12_one_or_two_live ["bob 1 1", "may 1 1", "bob 2 2", "may 2 2", "bob 3 3"] "may"
     (by decide) (by decide)⟩

/-! ## One iteration, on any state whose pending positions are in range -/

theorem step_spec (s : Scan) (line : String)
    (hw : ∀ i ∈ entry s.occurs (parse s.scratch line).name, i < s.data.length) :
    ∃ s1, step s line = some s1 ∧ s1.index = s.index + 1 ∧
      s1.scratch = parse s.scratch line ∧
      s1.data.length = s.data.length + 1 ∧ s1.data[s.data.length]? = some line ∧
      (∀ i, i < s.data.length → s1.data[i]? =
        if (entry s.occurs (parse s.scratch line).name).length = 2 ∧
            i ∈ entry s.occurs (parse s.scratch line).name
        then some "" else s.data[i]?) ∧
      (∀ X, X ≠ (parse s.scratch line).name → find s1.occurs X = find s.occurs X) ∧
      find s1.occurs (parse s.scratch line).name =
        some (if (entry s.occurs (parse s.scratch line).name).length = 2 then [s.index]
          else entry s.occurs (parse s.scratch line).name ++ [s.index]) := by
  obtain ⟨Y, hY⟩ : ∃ Y, Y = (parse s.scratch line).name := ⟨_, rfl⟩
  rw [← hY] at hw ⊢
  obtain ⟨occurs0, hocc0, hfind0⟩ : ∃ o0,
      o0 = (if (find s.occurs Y).isNone then assign s.occurs Y [] else s.occurs) ∧
      ∀ X, find o0 X = if Y = X then some (entry s.occurs Y) else find s.occurs X := by
    refine ⟨_, rfl, ?_⟩
    intro X
    cases hf : find s.occurs Y with
    | none => simp [find_assign, entry, hf]
    | some w =>
      by_cases hX : Y = X
      · subst hX
        simp [entry, hf]
      · simp [hX]
  have hentry0 : entry occurs0 Y = entry s.occurs Y := by
    unfold entry
    rw [hfind0 Y, if_pos rfl]
    rfl
  obtain ⟨d1, o1, htrig, hd1len, hd1, ho1⟩ := trigger_spec s.data occurs0 Y (by
    rw [hentry0]
    exact hw)
  rw [hentry0] at hd1 ho1
  have hentry1 : entry o1 Y =
      if (entry s.occurs Y).length = 2 then [] else entry s.occurs Y := by
    have h1 := ho1 Y
    rw [hfind0 Y] at h1
    by_cases h2 : (entry s.occurs Y).length = 2
    · rw [if_pos ⟨rfl, h2⟩] at h1
      rw [if_pos h2]
      unfold entry
      rw [h1]
      rfl
    · rw [if_neg (fun h => h2 h.2), if_pos rfl] at h1
      rw [if_neg h2]
      show (find o1 Y).getD [] = _
      rw [h1]
      rfl
  refine ⟨{ data := d1 ++ [line], occurs := assign o1 Y (entry o1 Y ++ [s.index]),
            index := s.index + 1, scratch := parse s.scratch line }, ?_, rfl, rfl, ?_, ?_, ?_,
          ?_, ?_⟩
  · simp only [step, ← hY, ← hocc0, htrig]
    rfl
  · simp [hd1len]
  · show (d1 ++ [line])[s.data.length]? = some line
    rw [List.getElem?_append_right (by omega), hd1len]
    simp
  · intro i hi
    show (d1 ++ [line])[i]? = _
    rw [List.getElem?_append_left (by omega), hd1 i hi]
  · intro X hX
    show find (assign o1 Y (entry o1 Y ++ [s.index])) X = _
    rw [find_assign, if_neg (Ne.symm hX), ho1 X, if_neg (fun h => hX h.1.symm), hfind0 X,
      if_neg (Ne.symm hX)]
  · show find (assign o1 Y (entry o1 Y ++ [s.index])) Y = _
    rw [find_assign, if_pos rfl, hentry1]
    by_cases h2 : (entry s.occurs Y).length = 2 <;> simp [h2]

theorem entry_eq_window (lines : List String) (s : Scan) (h : Inv lines s) (X : String) :
    entry s.occurs X = window X (attributed Scan.init.scratch lines) := by
  unfold entry
  rw [h.occurs_eq X]
  by_cases hX : X ∈ attributed Scan.init.scratch lines
  · rw [if_pos hX]
    rfl
  · rw [if_neg hX, window_eq_nil X _ hX]
    rfl

theorem entry_lt (lines : List String) (s : Scan) (h : Inv lines s) (X : String) :
    ∀ i ∈ entry s.occurs X, i < s.data.length := by
  intro i hi
  rw [entry_eq_window lines s h X] at hi
  have := positions_lt X _ i (List.mem_of_mem_drop hi)
  rw [attributed_length] at this
  rw [h.length_eq]
  exact this

/-! ## The driver -/

theorem dedupe_total (lines : List String) : ∃ out, dedupe lines = some out := by
  obtain ⟨s, hrun, _⟩ := run_inv lines
  exact ⟨s.data, by simp [dedupe, hrun]⟩

theorem printLoop_eq (result : List String) (fuel i : Nat) (h : i + fuel = result.length) :
    printLoop result fuel i =
      (List.range' i fuel).map (fun k => toString k ++ ": " ++ result.getD k "") := by
  induction fuel generalizing i with
  | zero => rfl
  | succ fuel ih =>
    have hi : i < result.length := by omega
    have hget : result[i]? = some result[i] := List.getElem?_eq_getElem hi
    have hD : result.getD i "" = result[i] := by
      rw [List.getD_eq_getElem?_getD, hget]
      rfl
    simp only [printLoop, hget, List.range'_succ, List.map_cons, hD]
    rw [ih (i + 1) (by omega)]

/-- C13: `main` as a function of the argument count and of whether the named
file opens readable.  It always terminates with a status; the status is 1
exactly when `argc` is not 2, and then the result does not depend on the file
(`dedupe` is not run); with `argc = 2` the status is 2 when the file cannot be
opened, and otherwise 0 after one line `<i>: <entry>` has been written for
every index `i` of the result of `dedupe`, in increasing order. -/
theorem C13_main_status (argc : Int) (argv1 : String) (file : Option (List String)) :
    ∃ out status, main argc argv1 file = some (out, status) ∧
      (status = 1 ↔ argc ≠ 2) ∧
      (argc ≠ 2 → ∀ other, main argc argv1 other = some (out, status)) ∧
      (status = 2 ↔ argc = 2 ∧ file = none) ∧
      (argc = 2 → ∀ lines, file = some lines → status = 0 ∧
        ∃ result, dedupe lines = some result ∧
          out = (List.range result.length).map
            (fun i => toString i ++ ": " ++ result.getD i "")) := by
  by_cases hargc : argc ≠ 2
  · refine ⟨["Specify data file as command-line argument."], 1, ?_, ?_, ?_, ?_, ?_⟩
    · simp [main, hargc]
    · simp [hargc]
    · intro _ other
      simp [main, hargc]
    · simp [hargc]
    · intro h2
      exact absurd h2 hargc
  · have h2 : argc = 2 := not_not.1 hargc
    cases file with
    | none =>
      refine ⟨["Error reading data from " ++ argv1], 2, ?_, ?_, ?_, ?_, ?_⟩
      · simp [main, h2]
      · simp [h2]
      · intro hne
        exact absurd h2 hne
      · simp [h2]
      · intro _ lines hl
        cases hl
    | some lines =>
      obtain ⟨result, hres⟩ := dedupe_total lines
      refine ⟨printLoop result result.length 0, 0, ?_, ?_, ?_, ?_, ?_⟩
      · simp [main, h2, hres]
      · simp [h2]
      · intro hne
        exact absurd h2 hne
      · simp
      · intro _ lines1 hl
        obtain rfl := Option.some.inj hl
        refine ⟨rfl, result, hres, ?_⟩
        rw [printLoop_eq result result.length 0 (by omega), List.range_eq_range']

/-- C14: for every input `xs` and every further line `l`, the output for
`xs ++ [l]` is one longer than `xs`, has `l` at its last position, and at every
position `i < len(xs)` holds either the entry of the output for `xs` or the
empty string; an entry that was empty stays empty, and at most two positions
below `len(xs)` differ between the two outputs. -/
theorem C14_append_line (xs : List String) (l : String) :
    ∃ out out1, dedupe xs = some out ∧ dedupe (xs ++ [l]) = some out1 ∧
      out.length = xs.length ∧ out1.length = xs.length + 1 ∧
      out1[xs.length]? = some l ∧
      (∀ i, i < xs.length → out1[i]? = out[i]? ∨ out1[i]? = some "") ∧
      (∀ i, i < xs.length → out[i]? = some "" → out1[i]? = some "") ∧
      ((List.range xs.length).filter (fun i => decide (out1[i]? ≠ out[i]?))).length ≤ 2 := by
  obtain ⟨s, hrun, hinv⟩ := run_inv xs
  obtain ⟨s1, hstep, _, _, hlen1, hlast, hdata1, _, _⟩ :=
    step_spec s l (entry_lt xs s hinv _)
  have hlen := hinv.length_eq
  rw [hlen] at hlen1 hlast hdata1
  refine ⟨s.data, s1.data, by simp [dedupe, hrun], ?_, hlen, hlen1, hlast, ?_, ?_, ?_⟩
  · simp [dedupe, run_snoc, hrun, hstep]
  · intro i hi
    rw [hdata1 i hi]
    split
    · exact Or.inr rfl
    · exact Or.inl rfl
  · intro i hi hempty
    rw [hdata1 i hi]
    split
    · rfl
    · exact hempty
  · have hsub : (List.range xs.length).filter (fun i => decide (s1.data[i]? ≠ s.data[i]?)) ⊆
        entry s.occurs (parse s.scratch l).name := by
      intro i hi
      simp only [List.mem_filter, List.mem_range, decide_eq_true_eq] at hi
      obtain ⟨hilt, hne⟩ := hi
      rw [hdata1 i hilt] at hne
      by_contra hnot
      rw [if_neg (fun h => hnot h.2)] at hne
      exact hne rfl
    have hnd : ((List.range xs.length).filter
        (fun i => decide (s1.data[i]? ≠ s.data[i]?))).Nodup :=
      (List.nodup_range _).filter _
    have hwl : (entry s.occurs (parse s.scratch l).name).length ≤ 2 := by
      rw [entry_eq_window xs s hinv]
      exact window_length_le _ _
    exact (List.subperm_of_subset hnd hsub).length_le.trans hwl

theorem occurs_size (lines : List String) (s : Scan) (h : Inv lines s) (X : String)
    (w : List Nat) (hw : find s.occurs X = some w) : 1 ≤ w.length ∧ w.length ≤ 2 := by
  rw [h.occurs_eq X] at hw
  by_cases hX : X ∈ attributed Scan.init.scratch lines
  · rw [if_pos hX] at hw
    obtain rfl := Option.some.inj hw
    refine ⟨?_, window_length_le _ _⟩
    have hne := window_ne_nil X _ hX
    exact List.length_pos.2 hne
  · rw [if_neg hX] at hw
    cases hw

/-- C15: after any processed input `lines`, every identity present in the map
has a window of at least 1 and at most 2 positions, and so it has after one
more line.  The step for a line processed under the name `Y` leaves every
other window as it was; when the window of `Y` holds exactly 2 positions the
step replaces it by the new line's position alone, otherwise it appends the
new position; and a position leaves a window only in the former case. -/
theorem C15_window_size (lines : List String) (line : String) :
    ∃ s s1, run Scan.init lines = some s ∧ step s line = some s1 ∧
      run Scan.init (lines ++ [line]) = some s1 ∧
      (∀ X w, find s.occurs X = some w → 1 ≤ w.length ∧ w.length ≤ 2) ∧
      (∀ X w, find s1.occurs X = some w → 1 ≤ w.length ∧ w.length ≤ 2) ∧
      (∀ X, X ≠ (parse s.scratch line).name → find s1.occurs X = find s.occurs X) ∧
      ((entry s.occurs (parse s.scratch line).name).length = 2 →
        find s1.occurs (parse s.scratch line).name = some [lines.length]) ∧
      ((entry s.occurs (parse s.scratch line).name).length ≠ 2 →
        find s1.occurs (parse s.scratch line).name =
          some (entry s.occurs (parse s.scratch line).name ++ [lines.length])) ∧
      (∀ X p, p ∈ entry s.occurs X → p ∉ entry s1.occurs X →
        X = (parse s.scratch line).name ∧ (entry s.occurs X).length = 2) := by
  obtain ⟨s, hrun, hinv⟩ := run_inv lines
  obtain ⟨s1, hstep, _, _, _, _, _, hother, hself⟩ := step_spec s line (entry_lt lines s hinv _)
  obtain ⟨s2, hstep2, hinv1⟩ := step_inv lines s line hinv
  obtain rfl := Option.some.inj (hstep.symm.trans hstep2)
  rw [hinv.index_eq] at hself
  refine ⟨s, s1, hrun, hstep, by simp [run_snoc, hrun, hstep], occurs_size lines s hinv,
    occurs_size _ s1 hinv1, hother, ?_, ?_, ?_⟩
  · intro h2
    rw [hself, if_pos h2]
  · intro h2
    rw [hself, if_neg h2]
  · intro X p hp hnp
    by_cases hX : X = (parse s.scratch line).name
    · subst hX
      refine ⟨rfl, ?_⟩
      by_contra h2
      apply hnp
      unfold entry at hp ⊢
      rw [hself, if_neg h2]
      simp only [Option.getD_some, List.mem_append]
      exact Or.inl hp
    · exfalso
      apply hnp
      unfold entry at hp ⊢
      rw [hother X hX]
      exact hp

/-! ## Lines without a token -/

theorem foldl_parse_name (sc : Scratch) (lines : List String) :
    (lines.foldl parse sc).name = (lines.reverse.findSome? firstToken).getD sc.name := by
  induction lines using List.reverseRecOn with
  | nil => rfl
  | append_singleton ls l ih =>
    rw [List.foldl_append, List.reverse_append]
    simp only [List.foldl_cons, List.foldl_nil, List.reverse_cons, List.reverse_nil,
      List.nil_append, List.singleton_append, List.findSome?_cons]
    rw [parse_name, ih]
    cases firstToken l <;> rfl

theorem step_same_name (s : Scan) (line1 line2 : String)
    (h : firstToken line1 = firstToken line2) :
    (step s line1).map (fun r => (r.data.dropLast, r.occurs, r.index)) =
      (step s line2).map (fun r => (r.data.dropLast, r.occurs, r.index)) := by
  have hname : (parse s.scratch line1).name = (parse s.scratch line2).name := by
    rw [parse_name, parse_name, h]
  simp only [step, hname]
  cases trigger s.data
      (if (find s.occurs (parse s.scratch line2).name).isNone = true
        then assign s.occurs (parse s.scratch line2).name [] else s.occurs)
      (parse s.scratch line2).name with
  | none => rfl
  | some r =>
    obtain ⟨d, o⟩ := r
    simp [List.dropLast_concat]

/-- C16: a line that has a token is processed under its own first token,
however many tokens follow, and two lines with the same first token change
the map, the index and the earlier records alike; a line without a token is
processed under the name left in the scratch string, which is the first token
of the nearest earlier line that had one, or the empty string.  On
`"bob 1.1.1.1 10", "bob 2.2.2.2 20", ""` the blank line is processed as `bob`,
clears positions 0 and 1 and leaves `bob` with the window `[2]`; the output is
empty at 0, 1 and 2. -/
theorem C16_attribution :
    (∀ sc line t, firstToken line = some t → (parse sc line).name = t) ∧
    (∀ sc line, firstToken line = none → (parse sc line).name = sc.name) ∧
    (∀ s line1 line2, firstToken line1 = firstToken line2 →
      (step s line1).map (fun r => (r.data.dropLast, r.occurs, r.index)) =
        (step s line2).map (fun r => (r.data.dropLast, r.occurs, r.index))) ∧
    (∀ (lines : List String) (i : Nat) (line : String), lines[i]? = some line →
      ∃ s, run Scan.init (lines.take i) = some s ∧
        (parse s.scratch line).name = retainedIdentity lines i) ∧
    attributed Scan.init.scratch ["bob 1.1.1.1 10", "bob 2.2.2.2 20", ""] =
      ["bob", "bob", "bob"] ∧
    (run Scan.init ["bob 1.1.1.1 10", "bob 2.2.2.2 20", ""]).map (fun s => s.occurs) =
      some [("bob", [2])] ∧
    dedupe ["bob 1.1.1.1 10", "bob 2.2.2.2 20", ""] = some ["", "", ""] := by
  refine ⟨?_, ?_, step_same_name, ?_, by decide, by decide, by decide⟩
  · intro sc line t ht
    rw [parse_name, ht]
    rfl
  · intro sc line ht
    rw [parse_name, ht]
    rfl
  · intro lines i line hline
    obtain ⟨s, hrun, hinv⟩ := run_inv (lines.take i)
    refine ⟨s, hrun, ?_⟩
    have htake : lines.take (i + 1) = lines.take i ++ [line] := by
      rw [List.take_succ, hline]
      rfl
    have hfold := foldl_parse_name Scan.init.scratch (lines.take i ++ [line])
    rw [List.foldl_append, ← hinv.scratch_eq] at hfold
    unfold retainedIdentity
    rw [htake]
    exact hfold

/-- C17: `dedupe` returns for every input, blank and malformed lines included.
In the state reached after any input every position stored in a window is
below the length of `data`; so when the trigger fires for a name, its two
pending positions are in range, the guarded block returns, and so does the
whole iteration for any next line. -/
theorem C17_writes_in_range (lines : List String) :
    ∃ s, run Scan.init lines = some s ∧ (∃ out, dedupe lines = some out) ∧
      (∀ X w, find s.occurs X = some w → ∀ i ∈ w, i < s.data.length) ∧
      (∀ name, (entry s.occurs name).length = 2 →
        ∃ i0 i1, entry s.occurs name = [i0, i1] ∧ i0 < s.data.length ∧ i1 < s.data.length ∧
          clearAt s.data i0 = some (s.data.set i0 "") ∧
          clearAt (s.data.set i0 "") i1 = some ((s.data.set i0 "").set i1 "")) ∧
      (∀ name, ∃ r, trigger s.data s.occurs name = some r) ∧
      (∀ line, ∃ s1, step s line = some s1) := by
  obtain ⟨s, hrun, hinv⟩ := run_inv lines
  refine ⟨s, hrun, ⟨s.data, by simp [dedupe, hrun]⟩, ?_, ?_, ?_, ?_⟩
  · intro X w hw i hi
    apply entry_lt lines s hinv X i
    unfold entry
    rw [hw]
    exact hi
  · intro name h2
    obtain ⟨i0, i1, h01⟩ := List.length_eq_two.1 h2
    have h0 : i0 < s.data.length := entry_lt lines s hinv name i0 (by rw [h01]; simp)
    have h1 : i1 < s.data.length := entry_lt lines s hinv name i1 (by rw [h01]; simp)
    refine ⟨i0, i1, h01, h0, h1, ?_, ?_⟩
    · simp [clearAt, h0]
    · simp [clearAt, h1]
  · intro name
    obtain ⟨d1, o1, htrig, _⟩ := trigger_spec s.data s.occurs name (entry_lt lines s hinv name)
    exact ⟨(d1, o1), htrig⟩
  · intro line
    obtain ⟨s1, hstep, _⟩ := step_spec s line (entry_lt lines s hinv _)
    exact ⟨s1, hstep⟩

/-! ## Windows and live records; one identity at a time -/

theorem entry_tokens (lines : List String) (s : Scan) (X : String)
    (hfind : find s.occurs X =
      if some X ∈ identities lines then some (window (some X) (identities lines)) else none) :
    entry s.occurs X = window (some X) (identities lines) := by
  unfold entry
  rw [hfind]
  by_cases hX : some X ∈ identities lines
  · rw [if_pos hX]
    rfl
  · rw [if_neg hX, window_eq_nil _ _ hX]
    rfl

/-- C18: after any prefix (the first `m` lines) of an input in which every line
has a token, the window of every identity `X` is the list, in strictly
increasing order and without repetition, of exactly the positions whose line
has identity `X` and whose output entry is non-empty; so every position in the
window belongs to a line of `X`, and no emptied position is in it. -/
theorem C18_window_is_live (lines : List String) (m : Nat) (X : String)
    (htok : ∀ l ∈ lines, hasToken l = true) :
    ∃ s, run Scan.init (lines.take m) = some s ∧
      entry s.occurs X = live X lines s.data ∧
      (entry s.occurs X).Pairwise (fun p q => p < q) ∧ (entry s.occurs X).Nodup ∧
      (∀ p, p ∈ entry s.occurs X ↔
        (p < s.data.length ∧ (identities lines)[p]? = some (some X) ∧ s.data[p]? ≠ some "")) ∧
      (∀ p, p ∈ entry s.occurs X → (identities lines)[p]? = some (some X)) ∧
      (∀ p, s.data[p]? = some "" → p ∉ entry s.occurs X) := by
  have htake : ∀ l ∈ lines.take m, hasToken l = true :=
    fun l hl => htok l (List.mem_of_mem_take hl)
  obtain ⟨s, hrun, hlen, _, hfind, hdata⟩ := run_tokens (lines.take m) htake
  have hm : s.data.length ≤ m := by
    rw [hlen, List.length_take]
    omega
  have hentry : entry s.occurs X = live X lines s.data := by
    rw [entry_tokens (lines.take m) s X (hfind X), live_take lines X s.data m hm,
      live_eq_window (lines.take m) X s.data hlen (hdata X)]
  have hmem : ∀ p, p ∈ entry s.occurs X ↔
      (p < s.data.length ∧ (identities lines)[p]? = some (some X) ∧ s.data[p]? ≠ some "") := by
    intro p
    rw [hentry]
    unfold live
    simp only [List.mem_filter, List.mem_range, Bool.and_eq_true, decide_eq_true_eq]
  refine ⟨s, hrun, hentry, ?_, ?_, hmem, ?_, ?_⟩
  · rw [entry_tokens (lines.take m) s X (hfind X)]
    exact window_pairwise _ _
  · rw [entry_tokens (lines.take m) s X (hfind X)]
    exact (positions_nodup _ _).sublist (List.drop_sublist _ _)
  · intro p hp
    exact ((hmem p).1 hp).2.1
  · intro p hp hin
    exact ((hmem p).1 hin).2.2 hp

/-- C18 after four of five lines: the window of `bob` is `[2, 3]`, the live
positions of `bob`. -/
theorem C18_witness :
    (∀ l ∈ ["bob 1 1", "bob 2 2", "bob 3 3", "bob 4 4", "bob 5 5"], hasToken l = true) ∧
    (run Scan.init (["bob 1 1", "bob 2 2", "bob 3 3", "bob 4 4", "bob 5 5"].take 4)).map
      (fun s => (s.data, entry s.occurs "bob")) =
      some (["", "", "bob 3 3", "bob 4 4"], [2, 3]) ∧
    ∃ s, run Scan.init (["bob 1 1", "bob 2 2", "bob 3 3", "bob 4 4", "bob 5 5"].take 4) =
        some s ∧
      entry s.occurs "bob" =
        live "bob" ["bob 1 1", "bob 2 2", "bob 3 3", "bob 4 4", "bob 5 5"] s.data ∧
      (entry s.occurs "bob").Pairwise (fun p q => p < q) ∧ (entry s.occurs "bob").Nodup ∧
      (∀ p, p ∈ entry s.occurs "bob" ↔
        (p < s.data.length ∧
          (identities ["bob 1 1", "bob 2 2", "bob 3 3", "bob 4 4", "bob 5 5"])[p]? =
            some (some "bob") ∧ s.data[p]? ≠ some "")) ∧
      (∀ p, p ∈ entry s.occurs "bob" →
        (identities ["bob 1 1", "bob 2 2", "bob 3 3", "bob 4 4", "bob 5 5"])[p]? =
          some (some "bob")) ∧
      (∀ p, s.data[p]? = some "" → p ∉ entry s.occurs "bob") :=
  ⟨by decide, by decide,
   C18_window_is_live ["bob 1 1", "bob 2 2", "bob 3 3", "bob 4 4", "bob 5 5"] 4 "bob"
     (by decide)⟩

theorem positions_all {α : Type} [DecidableEq α] (a : α) (l : List α)
    (h : ∀ x ∈ l, x = a) : positions a l = List.range l.length := by
  unfold positions
  rw [List.filter_eq_self]
  intro i hi
  rw [List.mem_range] at hi
  rw [decide_eq_true_eq, List.getElem?_eq_getElem hi, h l[i] (List.getElem_mem hi)]

theorem positions_map_getElem {α β : Type} [DecidableEq β] (f : α → β) (a : β)
    (l : List α) :
    (positions a (l.map f)).map (fun p => l[p]?) =
      (l.filter (fun x => decide (f x = a))).map some := by
  induction l using List.reverseRecOn with
  | nil => rfl
  | append_singleton l b ih =>
    rw [List.map_append, List.map_singleton, positions_snoc, List.map_append,
      List.filter_append, List.map_append, ← ih]
    congr 1
    · apply List.map_congr_left
      intro p hp
      have hlt := positions_lt _ _ p hp
      rw [List.length_map] at hlt
      rw [List.getElem?_append_left hlt]
    · by_cases hb : f b = a
      · simp [hb]
      · simp [hb]

theorem dedupe_filter (lines : List String) (X : String)
    (htok : ∀ l ∈ lines, hasToken l = true) :
    ∃ out outX, dedupe lines = some out ∧
      dedupe (lines.filter (fun l => decide (firstToken l = some X))) = some outX ∧
      (positions (some X) (identities lines)).map (fun p => out[p]?) = outX.map some := by
  have hsub : ∀ l ∈ lines.filter (fun l => decide (firstToken l = some X)),
      hasToken l = true := fun l hl => htok l (List.mem_of_mem_filter hl)
  obtain ⟨out, hout, _, hspec⟩ := dedupe_tokens lines htok
  obtain ⟨outX, houtX, hlenX, hspecX⟩ := dedupe_tokens _ hsub
  refine ⟨out, outX, hout, houtX, ?_⟩
  have hget := positions_map_getElem firstToken (some X) lines
  have hall : ∀ x ∈ identities (lines.filter (fun l => decide (firstToken l = some X))),
      x = some X := by
    intro x hx
    unfold identities at hx
    obtain ⟨l, hl, rfl⟩ := List.mem_map.1 hx
    have := (List.mem_filter.1 hl).2
    exact of_decide_eq_true this
  have hposX := positions_all (some X) _ hall
  have hn : (lines.filter (fun l => decide (firstToken l = some X))).length =
      (positions (some X) (identities lines)).length := by
    have := congrArg List.length hget
    simp only [List.length_map] at this
    exact this.symm
  have hidlen : (identities (lines.filter (fun l => decide (firstToken l = some X)))).length =
      (positions (some X) (identities lines)).length := by
    unfold identities
    rw [List.length_map, hn]
    rfl
  rw [hidlen] at hposX
  apply List.ext_getElem?
  intro j
  rw [List.getElem?_map, List.getElem?_map]
  by_cases hj : j < (positions (some X) (identities lines)).length
  · have hpj : (positions (some X) (identities lines))[j]? =
        some (positions (some X) (identities lines))[j] := List.getElem?_eq_getElem hj
    have hXj : (positions (some X)
        (identities (lines.filter (fun l => decide (firstToken l = some X)))))[j]? = some j := by
      rw [hposX]
      exact List.getElem?_range hj
    have hline := congrArg (fun l => l[j]?) hget
    simp only [List.getElem?_map] at hline
    have hpj1 : (positions (some X) (List.map firstToken lines))[j]? =
        some (positions (some X) (identities lines))[j] := hpj
    rw [hpj1, Option.map_some'] at hline
    rw [hpj, Option.map_some', hspec X j _ hpj, hspecX X j j hXj, hposX, List.length_range]
    by_cases hc : cleared (positions (some X) (identities lines)).length ≤ j
    · rw [if_pos hc, if_pos hc]
      cases hs : (lines.filter (fun l => decide (firstToken l = some X)))[j]? with
      | none =>
        rw [List.getElem?_eq_none_iff] at hs
        omega
      | some x =>
        rw [hs, Option.map_some'] at hline
        rw [Option.some.inj hline]
        rfl
    · rw [if_neg hc, if_neg hc]
      rfl
  · rw [List.getElem?_eq_none (by omega), List.getElem?_eq_none (by omega)]
    rfl

/-- C19: when every line has a token, the output entries at the positions of
the lines of an identity `X`, read in order, are the output of `dedupe` on the
sub-sequence of the lines of `X` alone; hence any other input `lines2` with
the same lines of `X` in the same order (lines of other identities inserted,
removed or reordered) has the same entries at the positions of `X`. -/
theorem C19_identities_independent (lines lines2 : List String) (X : String)
    (htok : ∀ l ∈ lines, hasToken l = true) (htok2 : ∀ l ∈ lines2, hasToken l = true)
    (hsame : lines2.filter (fun l => decide (firstToken l = some X)) =
      lines.filter (fun l => decide (firstToken l = some X))) :
    ∃ out outX out2, dedupe lines = some out ∧
      dedupe (lines.filter (fun l => decide (firstToken l = some X))) = some outX ∧
      dedupe lines2 = some out2 ∧
      (positions (some X) (identities lines)).map (fun p => out[p]?) = outX.map some ∧
      (positions (some X) (identities lines2)).map (fun p => out2[p]?) =
        (positions (some X) (identities lines)).map (fun p => out[p]?) := by
  obtain ⟨out, outX, hout, houtX, heq⟩ := dedupe_filter lines X htok
  obtain ⟨out2, outX2, hout2, houtX2, heq2⟩ := dedupe_filter lines2 X htok2
  rw [hsame, houtX] at houtX2
  obtain rfl := Option.some.inj houtX2
  exact ⟨out, outX, out2, hout, houtX, hout2, heq, heq2.trans heq.symm⟩

/-- C19 on two inputs with the same three lines of `bob` among different
other lines. -/
theorem C19_witness :
    (∀ l ∈ ["bob 1 1", "may 1 1", "bob 2 2", "bob 3 3", "may 2 2"], hasToken l = true) ∧
    (∀ l ∈ ["doe 1 1", "bob 1 1", "bob 2 2", "doe 2 2", "doe 3 3", "bob 3 3"],
        hasToken l = true) ∧
    dedupe ["bob 1 1", "may 1 1", "bob 2 2", "bob 3 3", "may 2 2"] =
      some ["", "may 1 1", "", "bob 3 3", "may 2 2"] ∧
    dedupe ["bob 1 1", "bob 2 2", "bob 3 3"] = some ["", "", "bob 3 3"] ∧
    dedupe ["doe 1 1", "bob 1 1", "bob 2 2", "doe 2 2", "doe 3 3", "bob 3 3"] =
      some ["", "", "", "", "doe 3 3", "bob 3 3"] ∧
    ∃ out outX out2,
      dedupe ["bob 1 1", "may 1 1", "bob 2 2", "bob 3 3", "may 2 2"] = some out ∧
      dedupe (["bob 1 1", "may 1 1", "bob 2 2", "bob 3 3", "may 2 2"].filter
        (fun l => decide (firstToken l = some "bob"))) = some outX ∧
      dedupe ["doe 1 1", "bob 1 1", "bob 2 2", "doe 2 2", "doe 3 3", "bob 3 3"] = some out2 ∧
      (positions (some "bob")
          (identities ["bob 1 1", "may 1 1", "bob 2 2", "bob 3 3", "may 2 2"])).map
        (fun p => out[p]?) = outX.map some ∧
      (positions (some "bob")
          (identities ["doe 1 1", "bob 1 1", "bob 2 2", "doe 2 2", "doe 3 3", "bob 3 3"])).map
        (fun p => out2[p]?) =
        (positions (some "bob")
          (identities ["bob 1 1", "may 1 1", "bob 2 2", "bob 3 3", "may 2 2"])).map
        (fun p => out[p]?) :=
  ⟨by decide, by decide, by decide, by decide, by decide,
   C19_identities_independent ["bob 1 1", "may 1 1", "bob 2 2", "bob 3 3", "may 2 2"]
     ["doe 1 1", "bob 1 1", "bob 2 2", "doe 2 2", "doe 3 3", "bob 3 3"] "bob"
     (by decide) (by decide) (by decide)⟩

end DeDupe
